import Mathlib

/-!
Verification of the I6P core against its specification.

The Go sources under i6p/ are shallowly embedded: byte strings become
`List Nat` (one entry per byte), machine integers become `Nat`/`Int` with
explicit reductions modulo 2^32 or 2^64 where Go wraps, fallible
operations return `Except Err`, and the mutable state of the ratchet
receiver and of the AEAD cipher is passed explicitly.

The repository consumes three cryptographic primitives from outside the
repository (Go's crypto/sha256 and crypto/ed25519, and
golang.org/x/crypto/chacha20poly1305).  Those are modelled from the
spec as ideal primitives faithful to their interface contracts
(deterministic, collision-free, authentication rejects anything that is
not the genuine value); every definition translated from repository code
is marked with the file it comes from.
-/
namespace I6P

/-- Error kinds of the embedded code; each constructor stands for one of
the distinct Go error values of the repository. -/
inductive Err where
  | invalidKeySize
  | ciphertextTooShort
  | decryptionFailed
  | ratchetExhausted
  | invalidGeneration
  | ratchetMsgTooShort
  | helloMissingKey
  | helloPeerIDMismatch
  | helloBadSignature
  | helloMissingPeerID
  | hexInvalidByte
  | hexOddLength
  | peerIDLength
  | merkleEmpty
  | merkleProofFail
  | merkleIndexRange
  | batchTooLarge
  | batchTooShort
  | invalidBatchMagic
  | batchTruncated
  | readShort
  | ticketExpired
  | ticketInvalid
  deriving DecidableEq, Repr

/-- 2^64, the modulus of Go's uint64 arithmetic. -/
def U64 : Nat := 2 ^ 64

/-- Value of a Go uint64 bit pattern reinterpreted as int64 (the `int`
cast on a 64-bit platform). -/
def toInt64 (n : Nat) : Int :=
  if n < 2 ^ 63 then (n : Int) else (n : Int) - 2 ^ 64

/-- Nonnegative remainder embedding an int64 into uint64 (Go's
`uint64(x)` conversion of an int64 value). -/
def toU64 (i : Int) : Nat := (i % (2 ^ 64 : Int)).toNat

/-- Big-endian base-256 digits, `w` bytes wide (binary.BigEndian). -/
def be (w : Nat) (n : Nat) : List Nat :=
  (List.range w).map (fun i => n / 256 ^ (w - 1 - i) % 256)

/-- Value of a big-endian byte list (binary.BigEndian.UintNN). -/
def unbe (l : List Nat) : Nat := l.foldl (fun a b => a * 256 + b) 0

/-! Injective encoding of a byte list into one natural number.  This is
the combinatorial backbone of the ideal hash model: `encL` is injective,
which is proved by chasing a canonical binary/ternary decomposition. -/
/-- Little-endian binary digits of `n`, canonical (no trailing zeros). -/
def natBits (n : Nat) : List Nat :=
  if h : n = 0 then [] else
    n % 2 :: natBits (n / 2)
decreasing_by exact Nat.div_lt_self (Nat.pos_of_ne_zero h) one_lt_two

/-- Value of a little-endian binary digit list. -/
def unBits : List Nat → Nat
  | [] => 0
  | b :: bs => b + 2 * unBits bs

/-- Symbol stream of a byte list: each byte in binary, terminated by the
separator symbol 2. -/
def symStream (l : List Nat) : List Nat :=
  l.flatMap (fun n => natBits n ++ [2])

/-- Reads a symbol list (digits < 3) as a base-3 numeral under a leading
sentinel, making the digit list recoverable. -/
def symVal : List Nat → Nat
  | [] => 1
  | d :: ds => d + 3 * symVal ds

/-- Injective encoding of a byte list as one natural number. -/
def encL (l : List Nat) : Nat := symVal (symStream l)

/-- Modelled from the spec: SHA-256 (Go's crypto/sha256, which lives
outside this repository) as an ideal collision-free compression: a
32-entry digest whose first entry carries an injective encoding of the
input, offset past the byte range so digests are distinguishable from
plain data bytes. -/
def SHA256 (x : List Nat) : List Nat := (256 + encL x) :: List.replicate 31 0

/-! Ideal model of the raw ChaCha20-Poly1305 cipher
(golang.org/x/crypto/chacha20poly1305, outside this repository).
A sealed ciphertext is a self-describing record of the plaintext, key,
nonce and associated data (the plaintext appears twice, standing for the
keystream-encrypted body plus the Poly1305 tag binding everything);
opening succeeds exactly on genuine ciphertexts for the same key, nonce
and associated data.  Lengths are marked with one list entry. -/
/-- Length-marked field: one length entry followed by the field bytes
and the remainder. -/
def lpc (x r : List Nat) : List Nat := x.length :: (x ++ r)

/-- Modelled from the spec: the ideal ChaCha20-Poly1305 seal. -/
def chachaSeal (key nonce pt ad : List Nat) : List Nat :=
  lpc pt (lpc key (lpc nonce (lpc ad pt)))

/-- Modelled from the spec: the ideal ChaCha20-Poly1305 open; returns
the plaintext only when the ciphertext is genuine for these parameters. -/
def chachaOpen (key nonce ct ad : List Nat) : Option (List Nat) :=
  if ct.isEmpty then none
  else
    let pt := ct.tail.take (ct.headD 0)
    if ct = chachaSeal key nonce pt ad then some pt else none

/-! AEAD with managed nonces, from i6p/crypto (part_013).  The 4-byte
random prefix drawn from crypto/rand in `NewAEAD` is passed in as the
`pfx` argument; the 64-bit counter wraps exactly as Go's uint64 does. -/
/-- State of one AEAD instance: cipher key, 4-byte nonce prefix, and the
monotonic counter (part_013 lines 22-26). -/
structure AEADState where
  key : List Nat
  pfx : List Nat
  seq : Nat
  deriving Repr

/-- NewAEAD (part_013 lines 29-42); rejects keys that are not 32 bytes,
otherwise starts the counter at zero with the supplied random prefix. -/
def newAEAD (key pfx : List Nat) : Except Err AEADState :=
  if key.length = 32 then .ok ⟨key, pfx, 0⟩ else .error .invalidKeySize

/-- nextNonce (part_013 lines 44-50): increment the counter (uint64
wrap) and form prefix(4) || counter(u64 BE). -/
def nextNonce (a : AEADState) : AEADState × List Nat :=
  let s := (a.seq + 1) % U64
  (⟨a.key, a.pfx, s⟩, a.pfx ++ be 8 s)

/-- AEAD.Seal (part_013 lines 54-61): nonce || ciphertext-and-tag. -/
def aeadSeal (a : AEADState) (pt ad : List Nat) : AEADState × List Nat :=
  let n := nextNonce a
  (n.1, n.2 ++ chachaSeal a.key n.2 pt ad)

/-- AEAD.Open (part_013 lines 65-77), as a function of the key only (it
reads the embedded nonce and never touches the counter). -/
def aeadOpenWith (key ct ad : List Nat) : Except Err (List Nat) :=
  if ct.length < 12 + 16 then .error .ciphertextTooShort
  else
    match chachaOpen key (ct.take 12) (ct.drop 12) ad with
    | some pt => .ok pt
    | none => .error .decryptionFailed

/-- AEAD.Open on an instance (part_013 lines 65-77). -/
def aeadOpen (a : AEADState) (ct ad : List Nat) : Except Err (List Nat) :=
  aeadOpenWith a.key ct ad

/-! Symmetric ratchet, from the ratchet package (part_012).  The sending
chain and the receiving state are embedded with explicit state passing;
the receiver's Go map of cached chain keys becomes a partial function
`Nat → Option (List Nat)`. -/
/-- MaxGeneration (part_012 line 17). -/
def MaxGeneration : Nat := 2 ^ 32

/-- Sending chain state (part_012 lines 22-26). -/
structure Chain where
  chainKey : List Nat
  generation : Nat

/-- NewChain (part_012 lines 29-36). -/
def newChain (k : List Nat) : Except Err Chain :=
  if k.length = 32 then .ok ⟨k, 0⟩ else .error .invalidKeySize

/-- deriveKeys / deriveKeysStatic (part_012 lines 39-56 and 137-151):
returns (nextChainKey, messageKey) = (SHA-256(ck || 0x02),
SHA-256(ck || 0x01)). -/
def deriveKeys (ck : List Nat) : List Nat × List Nat :=
  (SHA256 (ck ++ [2]), SHA256 (ck ++ [1]))

/-- Chain.Step (part_012 lines 60-82); the 4-byte random AEAD prefix is
passed in as `pfx`.  Generation increments are uint64. -/
def Chain.Step (c : Chain) (pfx : List Nat) : Except Err (AEADState × Nat × Chain) :=
  if c.generation ≥ MaxGeneration then .error .ratchetExhausted
  else
    match newAEAD (deriveKeys c.chainKey).2 pfx with
    | .error e => .error e
    | .ok a => .ok (a, c.generation, ⟨(deriveKeys c.chainKey).1, (c.generation + 1) % U64⟩)

/-- EncryptedMessage (part_012 lines 100-103). -/
structure EncMessage where
  Generation : Nat
  Ciphertext : List Nat

/-- Chain.Seal (part_012 lines 106-113). -/
def Chain.Seal (c : Chain) (pfx pt ad : List Nat) : Except Err (EncMessage × Chain) :=
  match c.Step pfx with
  | .error e => .error e
  | .ok (a, gen, c2) => .ok (⟨gen, (aeadSeal a pt ad).2⟩, c2)

/-- Receiver state (part_012 lines 116-122); `maxSkip` is a Go `int`. -/
structure Receiver where
  chains : Nat → Option (List Nat)
  current : List Nat
  currentGen : Nat
  maxSkip : Int

/-- NewReceiver (part_012 lines 125-135). -/
def newReceiver (k : List Nat) (maxSkip : Int) : Except Err Receiver :=
  if k.length = 32 then .ok ⟨fun _ => none, k, 0, maxSkip⟩ else .error .invalidKeySize

/-- Cache loop of Receiver.Open (part_012 lines 194-199): starting at
generation `i` with chain key `ck`, stores `d` successive chain keys and
returns the updated map together with the chain key reached.  The fuel
`d` is `gen - currentGen` at the call site. -/
def cacheAux : Nat → (Nat → Option (List Nat)) → List Nat → Nat →
    ((Nat → Option (List Nat)) × List Nat)
  | 0, m, ck, _ => (m, ck)
  | d + 1, m, ck, i =>
    cacheAux d (fun g => if g = i then some ck else m g) (deriveKeys ck).1 (i + 1)

/-- Receiver.Open (part_012 lines 154-214).  Returns the result together
with the post-call state; on the paths where the Go code mutates the
receiver before a failing AEAD open, the returned state carries those
mutations, exactly as the source does.  The receiver-side NewAEAD random
prefix is irrelevant to Open and is passed as []. -/
def Receiver.Open (r : Receiver) (msg : EncMessage) (ad : List Nat) :
    Except Err (List Nat) × Receiver :=
  let gen := msg.Generation
  if gen = r.currentGen then
    match newAEAD (deriveKeys r.current).2 [] with
    | .error e => (.error e, r)
    | .ok a =>
      match aeadOpen a msg.Ciphertext ad with
      | .error e => (.error e, r)
      | .ok pt =>
        (.ok pt, { r with current := (deriveKeys r.current).1,
                          currentGen := (r.currentGen + 1) % U64 })
  else
    match r.chains gen with
    | some cached =>
      match newAEAD (deriveKeys cached).2 [] with
      | .error e => (.error e, r)
      | .ok a =>
        let r2 := { r with chains := fun g => if g = gen then none else r.chains g }
        (aeadOpen a msg.Ciphertext ad, r2)
    | none =>
      if gen > r.currentGen then
        let skip := toInt64 ((gen + U64 - r.currentGen) % U64)
        if skip > r.maxSkip then (.error .invalidGeneration, r)
        else
          let res := cacheAux (gen - r.currentGen) r.chains r.current r.currentGen
          let r2 := { r with chains := res.1, current := (deriveKeys res.2).1,
                             currentGen := (gen + 1) % U64 }
          match newAEAD (deriveKeys res.2).2 [] with
          | .error e => (.error e, r2)
          | .ok a => (aeadOpen a msg.Ciphertext ad, r2)
      else (.error .invalidGeneration, r)

/-- EncryptedMessage.Encode (part_012 lines 217-222). -/
def EncMessage.Encode (m : EncMessage) : List Nat :=
  be 8 m.Generation ++ m.Ciphertext

/-- DecodeEncryptedMessage (part_012 lines 225-233). -/
def decodeEncMessage (data : List Nat) : Except Err EncMessage :=
  if data.length < 8 then .error .ratchetMsgTooShort
  else .ok ⟨unbe (data.take 8), data.drop 8⟩

/-- Receiver freshly built from an all-zero key with maxSkip 1000, the
default configuration. -/
def recvZero : Receiver := ⟨fun _ => none, List.replicate 32 0, 0, 1000⟩

/-- Iterated sealing on one AEAD instance (each seal of arbitrary data
advances the counter by one). -/
def sealedTimes (a : AEADState) : Nat → AEADState
  | 0 => a
  | n + 1 => (aeadSeal (sealedTimes a n) [] []).1

/-- Fresh AEAD instance with zero key and zero prefix. -/
def aeadZero : AEADState := ⟨List.replicate 32 0, [0, 0, 0, 0], 0⟩

/-- Ground-truth chain key after n ratchet steps from ck. -/
def ckIter (ck : List Nat) : Nat → List Nat
  | 0 => ck
  | n + 1 => (deriveKeys (ckIter ck n)).1

/-- Message produced by Chain.Seal at generation `g` of the chain seeded
with `k0`, with AEAD random prefix `pfx`. -/
def sealMsgAt (k0 : List Nat) (g : Nat) (pfx pt ad : List Nat) : EncMessage :=
  ⟨g, (aeadSeal ⟨(deriveKeys (ckIter k0 g)).2, pfx, 0⟩ pt ad).2⟩

/-- Seals a sequence of (prefix, plaintext) items in order through one
chain (repeated Chain.Seal, part_012 lines 106-113). -/
def sealSeq (c : Chain) (ad : List Nat) :
    List (List Nat × List Nat) → Except Err (List EncMessage × Chain)
  | [] => .ok ([], c)
  | it :: rest =>
    match c.Seal it.1 it.2 ad with
    | .error e => .error e
    | .ok (m, c2) =>
      match sealSeq c2 ad rest with
      | .error e => .error e
      | .ok (ms, cf) => .ok (m :: ms, cf)

/-- Closed form of the messages produced by `sealSeq` from generation g. -/
def msgsFrom (k0 : List Nat) (g : Nat) (ad : List Nat) :
    List (List Nat × List Nat) → List EncMessage
  | [] => []
  | it :: rest => sealMsgAt k0 g it.1 it.2 ad :: msgsFrom k0 (g + 1) ad rest

/-- Opens a sequence of deliveries through one receiver (repeated
Receiver.Open, part_012 lines 154-214), collecting the plaintexts and
aborting on the first error. -/
def openAll (r : Receiver) (ad : List Nat) :
    List EncMessage → Except Err (List (List Nat) × Receiver)
  | [] => .ok ([], r)
  | m :: ms =>
    match r.Open m ad with
    | (.ok pt, r2) =>
      match openAll r2 ad ms with
      | .error e => .error e
      | .ok (l, rf) => .ok (pt :: l, rf)
    | (.error e, _) => .error e

/-- Upper bound used by the receiver invariant: one past the largest
generation processed so far. -/
def supD (done : List Nat) : Nat := done.foldr (fun d m => max (d + 1) m) 0

/-- Receiver invariant: after successfully processing exactly the
generations in `done`, the receiver sits one past the largest processed
generation, holds the true chain key there, and caches precisely the
unprocessed earlier generations. -/
def InvR (k0 : List Nat) (done : List Nat) (st : Receiver) : Prop :=
  st.currentGen = supD done ∧
  st.current = ckIter k0 (supD done) ∧
  st.maxSkip = 1000 ∧
  ∀ g, st.chains g = if g < supD done ∧ g ∉ done then some (ckIter k0 g) else none

/-- Witness chain key: 32 zero bytes. -/
def k0w : List Nat := List.replicate 32 0

/-- Witness items: three messages with 4-byte AEAD prefixes. -/
def itemsw : List (List Nat × List Nat) :=
  [([0, 0, 0, 0], [10]), ([0, 0, 0, 0], [11]), ([0, 0, 0, 0], [12])]

/-- Witness receiver: fresh from the zero key with maxSkip 1000. -/
def r0w : Receiver := ⟨fun _ => none, k0w, 0, 1000⟩

/-- Witness receiver for the cached-path scenario: generation 0 is
cached, current generation is 5. -/
def recvCached : Receiver :=
  ⟨fun g => if g = 0 then some (List.replicate 32 1) else none, List.replicate 32 0, 5, 1000⟩

/-! Merkle tree, from i6p/transfer/merkle.go.  The flat `nodes` array
(size 2n-1, leaves at positions n-1..2n-2, internal node i hashing its
children 2i+1 and 2i+2) is embedded as the function `nodesF` from array
positions to node hashes; the loops of GenerateProof and VerifyProof
become the structural recursions `proofWalk` and `verifyFold`. -/
/-- Power-of-two padding loop of BuildMerkleTree (merkle.go lines
31-34): n starts at 1 and doubles while n < len.  The `1 ≤ n` guard
only serves termination; n is always ≥ 1. -/
def nextPow2Loop (n len : Nat) : Nat :=
  if h : n < len ∧ 1 ≤ n then nextPow2Loop (n * 2) len else n
termination_by len - n
decreasing_by omega

/-- Node at position `idx` of the flat Merkle array built from the
padded leaves (merkle.go lines 47-59): positions from n-1 hold the
leaves, earlier positions hash their two children. -/
def nodesF (leaves : List (List Nat)) (idx : Nat) : List Nat :=
  if h : leaves.length - 1 ≤ idx then leaves.getD (idx - (leaves.length - 1)) []
  else SHA256 (nodesF leaves (2 * idx + 1) ++ nodesF leaves (2 * idx + 2))
termination_by leaves.length - 1 - idx
decreasing_by
  · omega
  · omega

/-- MerkleTree (merkle.go lines 17-21); the nodes array is recomputed
through `nodesF leaves`, so only the padded leaves and the root are
stored. -/
structure MerkleTree where
  leaves : List (List Nat)
  root : List Nat

/-- BuildMerkleTree (merkle.go lines 25-66). -/
def BuildMerkleTree (chunkHashes : List (List Nat)) : Except Err MerkleTree :=
  if chunkHashes.length = 0 then .error .merkleEmpty
  else
    let n := nextPow2Loop 1 chunkHashes.length
    let leaves := chunkHashes ++ List.replicate (n - chunkHashes.length) (SHA256 [])
    .ok ⟨leaves, nodesF leaves 0⟩

/-- Proof (merkle.go lines 76-81); ChunkIndex is a Go int that is only
ever a valid index, embedded as Nat. -/
structure Proof where
  ChunkIndex : Nat
  ChunkHash : List Nat
  Siblings : List (List Nat)
  IsLeft : List Bool

/-- Sibling-collection loop of GenerateProof (merkle.go lines 93-104),
walking from position `idx` up to the root. -/
def proofWalk (leaves : List (List Nat)) (idx : Nat) : List (List Nat) × List Bool :=
  if h : idx = 0 then ([], [])
  else
    let sib := if idx % 2 = 1 then idx + 1 else idx - 1
    let rest := proofWalk leaves ((idx - 1) / 2)
    (nodesF leaves sib :: rest.1, decide (idx % 2 = 0) :: rest.2)
termination_by idx
decreasing_by omega

/-- MerkleTree.GenerateProof (merkle.go lines 83-112). -/
def MerkleTree.GenerateProof (t : MerkleTree) (chunkIndex : Nat) : Except Err Proof :=
  if chunkIndex ≥ t.leaves.length then .error .merkleIndexRange
  else
    let w := proofWalk t.leaves (t.leaves.length - 1 + chunkIndex)
    .ok ⟨chunkIndex, t.leaves.getD chunkIndex [], w.1, w.2⟩

/-- Combination loop of VerifyProof (merkle.go lines 117-126); the Go
code indexes IsLeft[i] alongside Siblings, which the zip at the call
site reproduces. -/
def verifyFold (cur : List Nat) : List (List Nat × Bool) → List Nat
  | [] => cur
  | sb :: rest =>
    verifyFold (if sb.2 then SHA256 (sb.1 ++ cur) else SHA256 (cur ++ sb.1)) rest

/-- VerifyProof (merkle.go lines 115-132). -/
def VerifyProof (p : Proof) (expectedRoot : List Nat) : Except Err Unit :=
  if verifyFold p.ChunkHash (p.Siblings.zip p.IsLeft) = expectedRoot then .ok ()
  else .error .merkleProofFail

/-- Witness leaves for the two-chunk Merkle example. -/
def leaf0 : List Nat := List.replicate 32 0

/-- Second witness leaf. -/
def leaf1 : List Nat := List.replicate 32 1

/-- The Merkle tree over the two witness leaves. -/
def mt2 : MerkleTree := ⟨[leaf0, leaf1], SHA256 (leaf0 ++ leaf1)⟩

/-- The genuine proof for index 0 of the two-leaf tree. -/
def pr2 : Proof := ⟨0, leaf0, [leaf1], [false]⟩

/-- The Merkle tree of the single all-zero chunk hash: one leaf is
already a power of two, no padding is added, and the root is the leaf
itself. -/
def mt1 : MerkleTree := ⟨[List.replicate 32 0], List.replicate 32 0⟩

/-! Chunker and reassembly, from i6p/transfer (batch.go companion file,
lines 189-316 of part of src/i6p/transfer/batch.go). -/
/-- Chunk (source lines 217-221); Index is a Go int that the code only
ever assigns the running non-negative chunk count, embedded as Nat. -/
structure Chunk where
  Index : Nat
  Data : List Nat
  Hash : List Nat

/-- HashChunk (merkle.go lines 147-150). -/
def HashChunk (data : List Nat) : List Nat := SHA256 data

/-- Split loop (source lines 224-239): take chunkSize bytes at a time,
assigning consecutive indices.  The chunkSize = 0 guard only serves
termination; NewChunker replaces non-positive sizes by the default, so
the code never runs the loop with chunkSize = 0. -/
def splitGo (chunkSize : Nat) (data : List Nat) (idx : Nat) : List Chunk :=
  if h : data.length = 0 ∨ chunkSize = 0 then []
  else
    ⟨idx, data.take chunkSize, HashChunk (data.take chunkSize)⟩ ::
      splitGo chunkSize (data.drop chunkSize) (idx + 1)
termination_by data.length
decreasing_by simp only [List.length_drop]; omega

/-- Chunker.Split (source lines 224-239). -/
def chunkerSplit (chunkSize : Nat) (data : List Nat) : List Chunk :=
  splitGo chunkSize data 0

/-- Inner pass of the in-place ordering loop of Reassemble (source
lines 271-277): scanning with a running candidate, swapping whenever a
later chunk has a smaller index; returns the minimum together with the
remaining chunks in their post-swap order. -/
def bubbleMin (c : Chunk) : List Chunk → Chunk × List Chunk
  | [] => (c, [])
  | x :: xs =>
    if x.Index < c.Index then
      let r := bubbleMin x xs
      (r.1, c :: r.2)
    else
      let r := bubbleMin c xs
      (r.1, x :: r.2)

/-- Outer loop of Reassemble's ordering pass (source lines 271-277);
the fuel is the list length, one iteration per array position. -/
def selSortGo : Nat → List Chunk → List Chunk
  | _, [] => []
  | 0, l => l
  | f + 1, c :: xs =>
    ((bubbleMin c xs).1) :: selSortGo f (bubbleMin c xs).2

/-- Reassemble (source lines 267-284): order by index, then
concatenate the data. -/
def Reassemble (chunks : List Chunk) : List Nat :=
  (selSortGo chunks.length chunks).flatMap Chunk.Data

/-- Strict index order on chunks. -/
def chunkLT (a b : Chunk) : Prop := a.Index < b.Index

instance : IsAntisymm Chunk chunkLT :=
  ⟨fun _ _ h1 h2 => absurd h2 (Nat.lt_asymm h1)⟩

/-! Batch encoding, from i6p/transfer/batch.go. -/
/-- MaxBatchSize (batch.go line 15). -/
def MaxBatchSize : Nat := 4 * 1024 * 1024

/-- BatchMagic (batch.go line 17). -/
def BatchMagic : Nat := 0x49365042

/-- CompressedChunk (compress.go lines 83-88); Index is a Go int that
only ever holds a non-negative chunk index, embedded as Nat. -/
structure CompressedChunk where
  Index : Nat
  Compressed : Bool
  Data : List Nat
  OrigHash : List Nat

/-- Batch (batch.go lines 22-24). -/
structure Batch where
  Chunks : List CompressedChunk

/-- Batch.Size (batch.go lines 37-44). -/
def Batch.Size (b : Batch) : Nat :=
  8 + (b.Chunks.map (fun cc => 4 + 1 + 2 + cc.OrigHash.length + 4 + cc.Data.length)).sum

/-- Per-chunk wire layout written by Batch.Encode (batch.go lines
72-92); the u32/u16 conversions wrap exactly as Go's casts do. -/
def serializeChunk (cc : CompressedChunk) : List Nat :=
  be 4 (cc.Index % 2 ^ 32) ++ [if cc.Compressed then 1 else 0] ++
    be 2 (cc.OrigHash.length % 2 ^ 16) ++ cc.OrigHash ++
    be 4 (cc.Data.length % 2 ^ 32) ++ cc.Data

/-- Batch.Encode (batch.go lines 58-95). -/
def Batch.Encode (b : Batch) : Except Err (List Nat) :=
  if b.Size > MaxBatchSize then .error .batchTooLarge
  else .ok (be 4 BatchMagic ++ be 4 (b.Chunks.length % 2 ^ 32) ++
    b.Chunks.flatMap serializeChunk)

/-- Record-decoding loop of DecodeBatch (batch.go lines 113-152), with
the three truncation checks. -/
def decodeChunks : Nat → List Nat → Nat → Except Err (List CompressedChunk)
  | 0, _, _ => .ok []
  | i + 1, data, offset =>
    if offset + 4 + 1 + 2 > data.length then .error .batchTruncated
    else
      let index := unbe ((data.drop offset).take 4)
      let compressed := data.getD (offset + 4) 0 = 1
      let hashLen := unbe ((data.drop (offset + 5)).take 2)
      if offset + 7 + hashLen + 4 > data.length then .error .batchTruncated
      else
        let hash := (data.drop (offset + 7)).take hashLen
        let dataLen := unbe ((data.drop (offset + 7 + hashLen)).take 4)
        if offset + 11 + hashLen + dataLen > data.length then .error .batchTruncated
        else
          match decodeChunks i data (offset + 11 + hashLen + dataLen) with
          | .error e => .error e
          | .ok rest =>
            .ok (⟨index, decide compressed, (data.drop (offset + 11 + hashLen)).take dataLen,
              hash⟩ :: rest)

/-- DecodeBatch (batch.go lines 98-155). -/
def DecodeBatch (data : List Nat) : Except Err Batch :=
  if data.length < 8 then .error .batchTooShort
  else if unbe (data.take 4) ≠ BatchMagic then .error .invalidBatchMagic
  else
    match decodeChunks (unbe ((data.drop 4).take 4)) data 8 with
    | .error e => .error e
    | .ok chunks => .ok ⟨chunks⟩

/-- ReadBatch (batch.go lines 174-188); the reader is embedded as the
byte list it would deliver, and a short read surfaces as an error. -/
def ReadBatch (input : List Nat) : Except Err Batch :=
  if input.length < 4 then .error .readShort
  else
    let dataLen := unbe (input.take 4)
    if dataLen > MaxBatchSize then .error .batchTooLarge
    else if input.length < 4 + dataLen then .error .readShort
    else DecodeBatch ((input.drop 4).take dataLen)

/-- Batch whose serialized size is exactly 4 MiB. -/
def cexBatch : Batch := ⟨[⟨0, false, List.replicate 4194285 0, []⟩]⟩

/-- Oversized batch: serialized size 4 MiB + 1. -/
def cexBatch2 : Batch := ⟨[⟨0, false, List.replicate 4194286 0, []⟩]⟩

/-! Identity and HELLO, from i6p/identity/peerid.go, the identity
keypair file, and the protocol package (part_017).  Ed25519 and
encoding/hex live outside the repository: Ed25519 is modelled as an
ideal deterministic signature scheme, and hex as the byte-wise base-16
encoding, extended so that the out-of-byte-range entries of ideal
SHA-256 digests survive a hex round trip (on real bytes both coincide
with the Go library). -/
/-- Modelled from the spec: the unique valid Ed25519 signature under a
public key, an injective tag of the key and message (crypto/ed25519 is
outside the repository; Ed25519 is deterministic). -/
def sigTag (pub msg : List Nat) : List Nat := 257 :: lpc pub msg

/-- Modelled from the spec: ed25519.Sign; a Go private key is
seed(32) || publicKey(32), so the signature verifies under bytes 32..63
of the private key. -/
def ed25519Sign (priv msg : List Nat) : List Nat := sigTag (priv.drop 32) msg

/-- Modelled from the spec: ed25519.Verify accepts exactly the genuine
signature for this key and message. -/
def ed25519Verify (pub msg sig : List Nat) : Bool := sig = sigTag pub msg

/-- Hex digit character for a nibble (encoding/hex, lowercase);
values ≥ 16 (from ideal digests) get distinct codes past 'f'. -/
def digitChar (v : Nat) : Nat := if v < 10 then 48 + v else 87 + v

/-- Hex digit value of a character (encoding/hex fromHexChar).  The
`97 ≤ c` clause without an upper bound is the model extension: beyond
'f' it decodes the characters produced by `digitChar` for the
out-of-byte-range entries of ideal digests; for real hex strings it
matches Go exactly. -/
def fromHexChar (c : Nat) : Option Nat :=
  if 48 ≤ c ∧ c ≤ 57 then some (c - 48)
  else if 97 ≤ c then some (c - 87)
  else if 65 ≤ c ∧ c ≤ 70 then some (c - 55)
  else none

/-- hex.EncodeToString over the byte entries. -/
def hexEncode (bs : List Nat) : List Nat :=
  bs.flatMap (fun b => [digitChar (b / 16), digitChar (b % 16)])

/-- hex.DecodeString: decode pairs of digits, rejecting bad digits and
odd length. -/
def hexDecode : List Nat → Except Err (List Nat)
  | [] => .ok []
  | [_] => .error .hexOddLength
  | c1 :: c2 :: rest =>
    match fromHexChar c1, fromHexChar c2 with
    | some hi, some lo =>
      match hexDecode rest with
      | .ok bs => .ok ((hi * 16 + lo) :: bs)
      | .error e => .error e
    | _, _ => .error .hexInvalidByte

/-- PeerIDFromPublicKey (peerid.go lines 13-16). -/
def PeerIDFromPublicKey (publicKey : List Nat) : List Nat := SHA256 publicKey

/-- ParsePeerIDHex (peerid.go lines 18-29). -/
def ParsePeerIDHex (s : List Nat) : Except Err (List Nat) :=
  match hexDecode s with
  | .error e => .error e
  | .ok b => if b.length ≠ 32 then .error .peerIDLength else .ok b

/-- KeyPair (identity keypair file, lines 216-219 of the combined
source). -/
structure KeyPair where
  PublicKey : List Nat
  PrivateKey : List Nat

/-- KeyPair.Sign (identity keypair file). -/
def KeyPair.Sign (kp : KeyPair) (message : List Nat) : List Nat :=
  ed25519Sign kp.PrivateKey message

/-- identity.Verify (identity keypair file). -/
def identityVerify (publicKey message signature : List Nat) : Bool :=
  ed25519Verify publicKey message signature

/-- KeyPair.PeerID (identity keypair file). -/
def KeyPair.PeerID (kp : KeyPair) : List Nat := PeerIDFromPublicKey kp.PublicKey

/-- Hello (part_017 lines 25-32); PeerID is the hex string, embedded as
its character codes, and Capabilities as an association list. -/
structure Hello where
  PeerID : List Nat
  PublicKey : List Nat
  TimestampSec : Int
  Nonce : List Nat
  Capabilities : List (List Nat × List Nat)
  Signature : List Nat

/-- Lexicographic byte-string comparison (sort.Strings). -/
def lexLt : List Nat → List Nat → Bool
  | [], [] => false
  | [], _ :: _ => true
  | _ :: _, [] => false
  | a :: as, b :: bs => if a < b then true else if b < a then false else lexLt as bs

/-- Insertion step for sorting capability keys. -/
def insertSorted (kv : List Nat × List Nat) :
    List (List Nat × List Nat) → List (List Nat × List Nat)
  | [] => [kv]
  | x :: xs => if lexLt kv.1 x.1 then kv :: x :: xs else x :: insertSorted kv xs

/-- Capability map iterated with keys sorted lexicographically
(part_017 lines 70-85). -/
def sortCaps (caps : List (List Nat × List Nat)) : List (List Nat × List Nat) :=
  caps.foldr insertSorted []

/-- Capability portion of the signing bytes (part_017 lines 75-85):
keyLen(u16 BE) || key || valLen(u16 BE) || val per sorted entry. -/
def capBytes (caps : List (List Nat × List Nat)) : List Nat :=
  (sortCaps caps).flatMap
    (fun kv => be 2 (kv.1.length % 2 ^ 16) ++ kv.1 ++ be 2 (kv.2.length % 2 ^ 16) ++ kv.2)

/-- Hello.SigningBytes (part_017 lines 53-87). -/
def Hello.SigningBytes (h : Hello) : Except Err (List Nat) :=
  if h.PublicKey.length ≠ 32 then .error .helloMissingKey
  else
    match ParsePeerIDHex h.PeerID with
    | .error e => .error e
    | .ok id =>
      .ok (id ++ h.PublicKey ++ be 8 (toU64 h.TimestampSec) ++ h.Nonce ++
        capBytes h.Capabilities)

/-- Hello.Verify (part_017 lines 98-118). -/
def Hello.Verify (h : Hello) : Except Err Unit :=
  if h.PublicKey.length ≠ 32 then .error .helloMissingKey
  else
    match ParsePeerIDHex h.PeerID with
    | .error e => .error e
    | .ok claimed =>
      if PeerIDFromPublicKey h.PublicKey ≠ claimed then .error .helloPeerIDMismatch
      else
        match h.SigningBytes with
        | .error e => .error e
        | .ok toVerify =>
          if identityVerify h.PublicKey toVerify h.Signature then .ok ()
          else .error .helloBadSignature

/-- Hello.Sign (part_017 lines 89-96), state-passing form. -/
def Hello.SignWith (h : Hello) (kp : KeyPair) : Except Err Hello :=
  match h.SigningBytes with
  | .error e => .error e
  | .ok toSign => .ok { h with Signature := kp.Sign toSign }

/-- NewHello (part_017 lines 34-51) with the random nonce and the clock
passed as parameters; the peer id field is the hex form of
SHA-256(publicKey). -/
def NewHelloAt (kp : KeyPair) (ts : Int) (nonce : List Nat)
    (caps : List (List Nat × List Nat)) : Hello :=
  { PeerID := hexEncode (KeyPair.PeerID kp), PublicKey := kp.PublicKey,
    TimestampSec := ts, Nonce := nonce, Capabilities := caps, Signature := [] }

/-- Witness keypair: seed 7s, public key zeros. -/
def kpw : KeyPair := ⟨List.replicate 32 0, List.replicate 32 7 ++ List.replicate 32 0⟩

/-- Ticket (part_006 lines 28-34); the fixed-size byte arrays are
embedded as lists whose lengths the theorems carry. -/
structure Ticket where
  ID : List Nat
  IssuedAt : Int
  ExpiresAt : Int
  PeerID : List Nat
  SessionKey : List Nat

/-- TicketStore (part_006 lines 37-41); Encode/DecodeTicket read only
the store key, so the ticket map is carried opaquely. -/
structure TicketStore where
  tickets : List Nat → Option Ticket
  key : List Nat

/-- Ticket plaintext layout (part_006 lines 126-131):
peerID(32) || issuedAt(u64 BE) || expiresAt(u64 BE) || sessionKey(32). -/
def ticketPlain (t : Ticket) : List Nat :=
  t.PeerID ++ be 8 (toU64 t.IssuedAt) ++ be 8 (toU64 t.ExpiresAt) ++ t.SessionKey

/-- TicketStore.EncodeTicket (part_006 lines 124-145); the fresh
AEAD's random prefix is the `pfx` parameter. -/
def EncodeTicket (ts : TicketStore) (pfx : List Nat) (t : Ticket) : Except Err (List Nat) :=
  match newAEAD ts.key pfx with
  | .error e => .error e
  | .ok a => .ok (t.ID ++ (aeadSeal a (ticketPlain t) t.ID).2)

/-- TicketStore.DecodeTicket (part_006 lines 148-182); `now` is the
wall clock read by time.Now().Unix(), and the decode-side NewAEAD
random prefix (never used by Open) is []. -/
def DecodeTicket (ts : TicketStore) (now : Int) (data : List Nat) : Except Err Ticket :=
  if data.length < 16 + 12 + 16 + 80 then .error .ticketInvalid
  else
    match newAEAD ts.key [] with
    | .error e => .error e
    | .ok a =>
      match aeadOpen a (data.drop 16) (data.take 16) with
      | .error _ => .error .ticketInvalid
      | .ok plain =>
        if plain.length ≠ 80 then .error .ticketInvalid
        else
          if now > toInt64 (unbe ((plain.drop 40).take 8)) then .error .ticketExpired
          else
            .ok ⟨data.take 16, toInt64 (unbe ((plain.drop 32).take 8)),
              toInt64 (unbe ((plain.drop 40).take 8)), plain.take 32,
              (plain.drop 48).take 32⟩

def tsW : TicketStore := ⟨fun _ => none, List.replicate 32 7⟩

def tW : Ticket := ⟨List.replicate 16 1, 5, 10, List.replicate 32 2, List.replicate 32 3⟩

def encW : List Nat :=
  tW.ID ++ ((([9, 9, 9, 9] : List Nat) ++ be 8 (1 % U64)) ++
    chachaSeal tsW.key (([9, 9, 9, 9] : List Nat) ++ be 8 (1 % U64)) (ticketPlain tW) tW.ID)

theorem be_length (w n : Nat) : (be w n).length = w := by
  simp [be]

theorem unBits_natBits (n : Nat) : unBits (natBits n) = n := by
  induction n using Nat.strong_induction_on with
  | _ n ih =>
    rw [natBits]
    by_cases h : n = 0
    · simp [h, unBits]
    · simp only [h, dite_false, unBits]
      rw [ih (n / 2) (Nat.div_lt_self (Nat.pos_of_ne_zero h) one_lt_two)]
      omega

theorem natBits_lt_two (n : Nat) : ∀ d ∈ natBits n, d < 2 := by
  induction n using Nat.strong_induction_on with
  | _ n ih =>
    rw [natBits]
    by_cases h : n = 0
    · simp [h]
    · simp only [h, dite_false, List.mem_cons]
      intro d hd
      rcases hd with hd | hd
      · omega
      · exact ih (n / 2) (Nat.div_lt_self (Nat.pos_of_ne_zero h) one_lt_two) d hd

theorem natBits_inj {m n : Nat} (h : natBits m = natBits n) : m = n := by
  have := unBits_natBits m
  rw [h, unBits_natBits] at this
  omega

theorem symStream_lt_three (l : List Nat) : ∀ d ∈ symStream l, d < 3 := by
  intro d hd
  simp only [symStream, List.mem_flatMap, List.mem_append] at hd
  obtain ⟨n, _, hn⟩ := hd
  rcases hn with hn | hn
  · exact Nat.lt_of_lt_of_le (natBits_lt_two n d hn) (by omega)
  · simp at hn; omega

theorem sep_split {as bs r s : List Nat} (ha : (2 : Nat) ∉ as) (hb : (2 : Nat) ∉ bs)
    (h : as ++ 2 :: r = bs ++ 2 :: s) : as = bs ∧ r = s := by
  induction as generalizing bs with
  | nil =>
    cases bs with
    | nil => simpa using h
    | cons b bs =>
      simp only [List.nil_append, List.cons_append, List.cons.injEq] at h
      have : (2 : Nat) ∈ b :: bs := by
        rw [h.1]; exact List.mem_cons_self b bs
      exact absurd this hb
  | cons a as ih =>
    cases bs with
    | nil =>
      simp only [List.cons_append, List.nil_append, List.cons.injEq] at h
      have : (2 : Nat) ∈ a :: as := by
        rw [← h.1]; exact List.mem_cons_self a as
      exact absurd this ha
    | cons b bs =>
      simp only [List.cons_append, List.cons.injEq] at h
      have ha2 : (2 : Nat) ∉ as := fun hx => ha (List.mem_cons_of_mem a hx)
      have hb2 : (2 : Nat) ∉ bs := fun hx => hb (List.mem_cons_of_mem b hx)
      obtain ⟨he, hr⟩ := ih ha2 hb2 h.2
      exact ⟨by rw [h.1, he], hr⟩

theorem symStream_inj {l₁ l₂ : List Nat} (h : symStream l₁ = symStream l₂) : l₁ = l₂ := by
  induction l₁ generalizing l₂ with
  | nil =>
    cases l₂ with
    | nil => rfl
    | cons b bs =>
      simp only [symStream, List.flatMap_nil, List.flatMap_cons] at h
      have : (2 : Nat) ∈ ([] : List Nat) := by
        rw [h]; simp
      exact absurd this (by simp)
  | cons a as ih =>
    cases l₂ with
    | nil =>
      simp only [symStream, List.flatMap_nil, List.flatMap_cons] at h
      have : (2 : Nat) ∈ ([] : List Nat) := by
        rw [← h]; simp
      exact absurd this (by simp)
    | cons b bs =>
      simp only [symStream, List.flatMap_cons, List.append_assoc, List.cons_append,
        List.nil_append] at h
      have hna : (2 : Nat) ∉ natBits a := fun hx => absurd (natBits_lt_two a 2 hx) (by omega)
      have hnb : (2 : Nat) ∉ natBits b := fun hx => absurd (natBits_lt_two b 2 hx) (by omega)
      obtain ⟨he, hr⟩ := sep_split hna hnb h
      have : as = bs := ih hr
      rw [natBits_inj he, this]

theorem symVal_pos (l : List Nat) : 1 ≤ symVal l := by
  cases l with
  | nil => simp [symVal]
  | cons d ds =>
    have := symVal_pos ds
    simp only [symVal]; omega

theorem symVal_inj {l₁ l₂ : List Nat} (h₁ : ∀ d ∈ l₁, d < 3) (h₂ : ∀ d ∈ l₂, d < 3)
    (h : symVal l₁ = symVal l₂) : l₁ = l₂ := by
  induction l₁ generalizing l₂ with
  | nil =>
    cases l₂ with
    | nil => rfl
    | cons b bs =>
      exfalso
      have hb := h₂ b (List.mem_cons_self b bs)
      have := symVal_pos bs
      simp only [symVal] at h
      omega
  | cons a as ih =>
    cases l₂ with
    | nil =>
      exfalso
      have ha := h₁ a (List.mem_cons_self a as)
      have := symVal_pos as
      simp only [symVal] at h
      omega
    | cons b bs =>
      have ha := h₁ a (List.mem_cons_self a as)
      have hb := h₂ b (List.mem_cons_self b bs)
      simp only [symVal] at h
      have hab : a = b := by omega
      have hv : symVal as = symVal bs := by omega
      have : as = bs := ih (fun d hd => h₁ d (List.mem_cons_of_mem a hd))
        (fun d hd => h₂ d (List.mem_cons_of_mem b hd)) hv
      rw [hab, this]

theorem encL_inj {l₁ l₂ : List Nat} (h : encL l₁ = encL l₂) : l₁ = l₂ :=
  symStream_inj (symVal_inj (symStream_lt_three l₁) (symStream_lt_three l₂) h)

theorem SHA256_length (x : List Nat) : (SHA256 x).length = 32 := by
  simp [SHA256]

theorem SHA256_inj {x y : List Nat} (h : SHA256 x = SHA256 y) : x = y := by
  simp only [SHA256, List.cons.injEq] at h
  exact encL_inj (by omega)

theorem lpc_inj {x y r s : List Nat} (h : lpc x r = lpc y s) : x = y ∧ r = s := by
  simp only [lpc, List.cons.injEq] at h
  exact List.append_inj h.2 h.1

theorem chachaSeal_inj {k₁ n₁ p₁ a₁ k₂ n₂ p₂ a₂ : List Nat}
    (h : chachaSeal k₁ n₁ p₁ a₁ = chachaSeal k₂ n₂ p₂ a₂) :
    k₁ = k₂ ∧ n₁ = n₂ ∧ p₁ = p₂ ∧ a₁ = a₂ := by
  obtain ⟨hp, h⟩ := lpc_inj h
  obtain ⟨hk, h⟩ := lpc_inj h
  obtain ⟨hn, h⟩ := lpc_inj h
  obtain ⟨ha, _⟩ := lpc_inj h
  exact ⟨hk, hn, hp, ha⟩

theorem chachaSeal_length (k n p a : List Nat) :
    (chachaSeal k n p a).length = 4 + k.length + n.length + a.length + 2 * p.length := by
  simp [chachaSeal, lpc]; omega

theorem chachaOpen_seal (k n p a : List Nat) :
    chachaOpen k n (chachaSeal k n p a) a = some p := by
  have hseal : chachaSeal k n p a = p.length :: (p ++ lpc k (lpc n (lpc a p))) := rfl
  rw [chachaOpen, hseal]
  simp only [List.isEmpty_cons, List.tail_cons, List.headD_cons, List.take_left]
  simp [← hseal]

theorem chachaOpen_sound {k n ct a p : List Nat} (h : chachaOpen k n ct a = some p) :
    ct = chachaSeal k n p a := by
  rw [chachaOpen] at h
  split at h
  · cases h
  · simp only at h
    split at h
    · rename_i heq
      cases h
      exact heq
    · cases h

theorem chachaSeal_getD_first {k n p a : List Nat} {j : Nat} (hj : j < p.length) :
    (chachaSeal k n p a).getD (1 + j) 0 = p.getD j 0 := by
  have hseal : chachaSeal k n p a = p.length :: (p ++ lpc k (lpc n (lpc a p))) := rfl
  rw [hseal, Nat.add_comm 1 j, List.getD_cons_succ, List.getD_append _ _ _ _ hj]

theorem chachaSeal_getD_second {k n p a : List Nat} {j : Nat} (hj : j < p.length) :
    (chachaSeal k n p a).getD ((chachaSeal k n p a).length - p.length + j) 0 = p.getD j 0 := by
  have hseal : chachaSeal k n p a =
      (p.length :: (p ++ (k.length :: (k ++ (n.length :: (n ++ a.length :: a)))))) ++ p := by
    simp [chachaSeal, lpc]
  have hflen : (chachaSeal k n p a).length - p.length
      = (p.length :: (p ++ (k.length :: (k ++ (n.length :: (n ++ a.length :: a)))))).length := by
    rw [chachaSeal_length]
    simp only [List.length_cons, List.length_append]
    omega
  rw [hflen, hseal, List.getD_append_right _ _ _ _ (by omega)]
  congr 1
  omega

theorem chachaSeal_front_long (k n p a : List Nat) :
    4 + p.length ≤ (chachaSeal k n p a).length - p.length := by
  have := chachaSeal_length k n p a
  omega

/-- Core tamper lemma: changing one position of a genuine ciphertext can
never produce another genuine ciphertext for the same key, nonce and
associated data. -/
theorem seal_set_not_seal {k n p a : List Nat} {i v : Nat}
    (hi : i < (chachaSeal k n p a).length) (hv : v ≠ (chachaSeal k n p a).getD i 0)
    (p₂ : List Nat) : (chachaSeal k n p a).set i v ≠ chachaSeal k n p₂ a := by
  intro heq
  have hlen : (chachaSeal k n p₂ a).length = (chachaSeal k n p a).length := by
    rw [← heq, List.length_set]
  have hplen : p₂.length = p.length := by
    rw [chachaSeal_length, chachaSeal_length] at hlen
    omega
  by_cases hpp : p₂ = p
  · subst hpp
    have : ((chachaSeal k n p₂ a).set i v).getD i 0 = (chachaSeal k n p₂ a).getD i 0 := by
      rw [heq]
    rw [List.getD_eq_getElem _ _ (by simpa using hi), List.getElem_set_self] at this
    exact hv this
  · have : ∃ j, j < p.length ∧ p.getD j 0 ≠ p₂.getD j 0 := by
      by_contra hall
      push_neg at hall
      apply hpp
      apply List.ext_getElem (by omega)
      intro j hj₂ hj
      have := hall j (by omega)
      rw [List.getD_eq_getElem _ _ hj, List.getD_eq_getElem _ _ hj₂] at this
      exact this.symm
    obtain ⟨j, hj, hne⟩ := this
    set q₁ := 1 + j with hq₁
    set q₂ := (chachaSeal k n p a).length - p.length + j with hq₂
    have hfront := chachaSeal_front_long k n p a
    have hq₁q₂ : q₁ ≠ q₂ := by omega
    have hs₁ : (chachaSeal k n p a).getD q₁ 0 = p.getD j 0 := chachaSeal_getD_first hj
    have hs₂ : (chachaSeal k n p a).getD q₂ 0 = p.getD j 0 := chachaSeal_getD_second hj
    have ht₁ : (chachaSeal k n p₂ a).getD q₁ 0 = p₂.getD j 0 := chachaSeal_getD_first (by omega)
    have ht₂ : (chachaSeal k n p₂ a).getD q₂ 0 = p₂.getD j 0 := by
      have := chachaSeal_getD_second (p := p₂) (k := k) (n := n) (a := a) (j := j) (by omega)
      rw [hlen, hplen] at this
      exact this
    have hset : ∀ q, q ≠ i → ((chachaSeal k n p a).set i v).getD q 0 = (chachaSeal k n p a).getD q 0 := by
      intro q hq
      rw [List.getD_eq_getD_get?, List.getD_eq_getD_get?, List.get?_eq_getElem?,
        List.get?_eq_getElem?, List.getElem?_set_ne (fun h => hq h.symm)]
    rcases Decidable.em (q₁ = i) with hcase | hcase
    · have : ((chachaSeal k n p a).set i v).getD q₂ 0 = p.getD j 0 := by
        rw [hset q₂ (by omega), hs₂]
      rw [heq, ht₂] at this
      exact hne this.symm
    · have : ((chachaSeal k n p a).set i v).getD q₁ 0 = p.getD j 0 := by
        rw [hset q₁ hcase, hs₁]
      rw [heq, ht₁] at this
      exact hne this.symm

theorem aeadOpenWith_ne_invalidGeneration (key ct ad : List Nat) :
    aeadOpenWith key ct ad ≠ .error .invalidGeneration := by
  rw [aeadOpenWith]
  split
  · simp
  · split <;> simp

/-- Round trip through one AEAD instance with a 4-byte prefix: open
after seal returns the plaintext. -/
theorem aeadOpen_seal (st : AEADState) (hp : st.pfx.length = 4) (pt ad : List Nat) :
    aeadOpenWith st.key (aeadSeal st pt ad).2 ad = .ok pt := by
  rw [aeadSeal, nextNonce]
  simp only
  have hnlen : (st.pfx ++ be 8 ((st.seq + 1) % U64)).length = 12 := by
    simp [be_length, hp]
  rw [aeadOpenWith, List.take_left' hnlen, List.drop_left' hnlen]
  have hlen : ((st.pfx ++ be 8 ((st.seq + 1) % U64)) ++
      chachaSeal st.key (st.pfx ++ be 8 ((st.seq + 1) % U64)) pt ad).length ≥ 28 := by
    rw [List.length_append, hnlen, chachaSeal_length]
    omega
  rw [if_neg (by omega), chachaOpen_seal]

theorem newAEAD_derive (x : List Nat) (pfx : List Nat) :
    newAEAD (deriveKeys x).2 pfx = .ok ⟨(deriveKeys x).2, pfx, 0⟩ := by
  rw [newAEAD, if_pos]
  exact SHA256_length _

/-- Receiver.Open on the in-order path, successful decryption
(part_012 lines 161-173). -/
theorem open_inorder_ok {r : Receiver} {msg : EncMessage} {ad pt : List Nat}
    (h1 : msg.Generation = r.currentGen)
    (h2 : aeadOpenWith (deriveKeys r.current).2 msg.Ciphertext ad = .ok pt) :
    r.Open msg ad = (.ok pt, { r with current := (deriveKeys r.current).1,
                                      currentGen := (r.currentGen + 1) % U64 }) := by
  rw [Receiver.Open]
  simp only [h1, if_pos rfl, if_true, newAEAD_derive, aeadOpen, h2]

/-- Receiver.Open on the in-order path, failing decryption: the state is
unchanged (part_012 lines 161-170). -/
theorem open_inorder_err {r : Receiver} {msg : EncMessage} {ad : List Nat} {e : Err}
    (h1 : msg.Generation = r.currentGen)
    (h2 : aeadOpenWith (deriveKeys r.current).2 msg.Ciphertext ad = .error e) :
    r.Open msg ad = (.error e, r) := by
  rw [Receiver.Open]
  simp only [h1, if_pos rfl, if_true, newAEAD_derive, aeadOpen, h2]

/-- Receiver.Open on the cached path (part_012 lines 177-185): the cache
entry is deleted before the AEAD open, whatever its outcome. -/
theorem open_cached {r : Receiver} {msg : EncMessage} {ad cached : List Nat}
    (h1 : msg.Generation ≠ r.currentGen)
    (h2 : r.chains msg.Generation = some cached) :
    r.Open msg ad = (aeadOpenWith (deriveKeys cached).2 msg.Ciphertext ad,
      { r with chains := fun g => if g = msg.Generation then none else r.chains g }) := by
  rw [Receiver.Open]
  simp only [if_neg h1, h2, newAEAD_derive, aeadOpen]

/-- Receiver.Open on the future path with the skip guard passed
(part_012 lines 188-209): the cache is filled and the generation
advanced before the AEAD open, whatever its outcome. -/
theorem open_future {r : Receiver} {msg : EncMessage} {ad : List Nat}
    (h1 : msg.Generation ≠ r.currentGen)
    (h2 : r.chains msg.Generation = none)
    (h3 : msg.Generation > r.currentGen)
    (h4 : ¬ toInt64 ((msg.Generation + U64 - r.currentGen) % U64) > r.maxSkip) :
    r.Open msg ad =
      (aeadOpenWith
        (deriveKeys (cacheAux (msg.Generation - r.currentGen) r.chains r.current r.currentGen).2).2
        msg.Ciphertext ad,
       { r with
         chains := (cacheAux (msg.Generation - r.currentGen) r.chains r.current r.currentGen).1,
         current := (deriveKeys (cacheAux (msg.Generation - r.currentGen) r.chains r.current
           r.currentGen).2).1,
         currentGen := (msg.Generation + 1) % U64 }) := by
  rw [Receiver.Open]
  simp only [if_neg h1, h2, if_pos h3, if_neg h4, newAEAD_derive, aeadOpen]

/-- Receiver.Open on the future path with the skip guard failing
(part_012 lines 189-192). -/
theorem open_future_guard {r : Receiver} {msg : EncMessage} {ad : List Nat}
    (h1 : msg.Generation ≠ r.currentGen)
    (h2 : r.chains msg.Generation = none)
    (h3 : msg.Generation > r.currentGen)
    (h4 : toInt64 ((msg.Generation + U64 - r.currentGen) % U64) > r.maxSkip) :
    r.Open msg ad = (.error .invalidGeneration, r) := by
  rw [Receiver.Open]
  simp only [if_neg h1, h2, if_pos h3, if_pos h4]

/-- Receiver.Open on the stale path (part_012 lines 212-213). -/
theorem open_past {r : Receiver} {msg : EncMessage} {ad : List Nat}
    (h1 : msg.Generation ≠ r.currentGen)
    (h2 : r.chains msg.Generation = none)
    (h3 : ¬ msg.Generation > r.currentGen) :
    r.Open msg ad = (.error .invalidGeneration, r) := by
  rw [Receiver.Open]
  simp only [if_neg h1, h2, if_neg h3]

/-- C3: for a message whose generation exceeds the receiver's current
generation by 2^63, Receiver.Open does not fail with InvalidGeneration:
the Go code casts the uint64 difference to a signed int, the cast
overflows to -2^63, the `skip > maxSkip` guard is bypassed, and Open
proceeds onto the skip-ahead path (here the empty ciphertext is then
rejected by the AEAD layer instead).  The claim, following the spec
rule `skip = generation - currentGen; if skip > maxSkip, fail`, says
this must return InvalidGeneration for every generation up to 2^64-1. -/
theorem C3_skip_guard_bypassed_at_2pow63 :
    newReceiver (List.replicate 32 0) 1000 = .ok recvZero ∧
    (recvZero.Open ⟨2 ^ 63, []⟩ []).1 = .error .ciphertextTooShort ∧
    (recvZero.Open ⟨2 ^ 63, []⟩ []).1 ≠ .error .invalidGeneration := by
  refine ⟨by rw [newReceiver, if_pos (by simp)]; rfl, ?_⟩
  have h1 : (⟨2 ^ 63, []⟩ : EncMessage).Generation ≠ recvZero.currentGen := by
    simp [recvZero]
  have h2 : recvZero.chains (⟨2 ^ 63, []⟩ : EncMessage).Generation = none := rfl
  have h3 : (⟨2 ^ 63, []⟩ : EncMessage).Generation > recvZero.currentGen := by
    simp [recvZero]
  have h4 : ¬ toInt64 (((⟨2 ^ 63, []⟩ : EncMessage).Generation + U64 - recvZero.currentGen)
      % U64) > recvZero.maxSkip := by
    have hm : ((2 ^ 63 + U64 - 0) % U64 : Nat) = 2 ^ 63 := by
      rw [U64]; norm_num
    show ¬ toInt64 ((2 ^ 63 + U64 - 0) % U64) > (1000 : Int)
    rw [hm, toInt64, if_neg (by omega)]
    norm_num
  rw [open_future h1 h2 h3 h4]
  constructor
  · rw [aeadOpenWith, if_pos (by simp)]
  · rw [aeadOpenWith, if_pos (by simp)]
    simp

theorem sealedTimes_key (a : AEADState) (n : Nat) : (sealedTimes a n).key = a.key := by
  induction n with
  | zero => rfl
  | succ n ih => simp only [sealedTimes, aeadSeal, nextNonce, ih]

theorem sealedTimes_pfx (a : AEADState) (n : Nat) : (sealedTimes a n).pfx = a.pfx := by
  induction n with
  | zero => rfl
  | succ n ih => simp only [sealedTimes, aeadSeal, nextNonce, ih]

theorem sealedTimes_seq (a : AEADState) (h : a.seq = 0) (n : Nat) :
    (sealedTimes a n).seq = n % U64 := by
  induction n with
  | zero => simpa [sealedTimes] using h
  | succ n ih =>
    simp only [sealedTimes, aeadSeal, nextNonce, ih]
    rw [Nat.mod_add_mod]

/-- C4: the AEAD nonce counter silently wraps instead of failing at
exhaustion. After 2^64 seals on one instance, the counter returns to 0
and the next seal emits exactly the nonce of the very first seal; no
error is ever produced (Seal is total).  The claim, following the spec,
says the instance must fail at counter exhaustion. -/
theorem C4_counter_wraps_and_reuses_nonce :
    newAEAD (List.replicate 32 0) [0, 0, 0, 0] = .ok aeadZero ∧
    (aeadSeal (sealedTimes aeadZero (2 ^ 64)) [7] []).2.take 12 =
      (aeadSeal aeadZero [7] []).2.take 12 := by
  constructor
  · rw [newAEAD, if_pos (by simp)]; rfl
  · have hseq : (sealedTimes aeadZero (2 ^ 64)).seq = 0 := by
      rw [sealedTimes_seq aeadZero rfl, U64, Nat.mod_self]
    have hpfx := sealedTimes_pfx aeadZero (2 ^ 64)
    simp only [aeadSeal, nextNonce, hseq, hpfx]
    have hlen : (aeadZero.pfx ++ be 8 ((0 + 1) % U64)).length = 12 := by
      simp [be_length, aeadZero]
    have hlen0 : (aeadZero.pfx ++ be 8 ((aeadZero.seq + 1) % U64)).length = 12 := by
      simp [be_length, aeadZero]
    rw [List.take_left' hlen, List.take_left' hlen0]
    show aeadZero.pfx ++ be 8 ((0 + 1) % U64) = aeadZero.pfx ++ be 8 ((aeadZero.seq + 1) % U64)
    rfl

theorem ckIter_succ_front (ck : List Nat) (n : Nat) :
    ckIter ck (n + 1) = ckIter (deriveKeys ck).1 n := by
  induction n with
  | zero => rfl
  | succ n ih =>
    show (deriveKeys (ckIter ck (n + 1))).1 = (deriveKeys (ckIter (deriveKeys ck).1 n)).1
    rw [ih]

theorem cacheAux_snd (d : Nat) (m : Nat → Option (List Nat)) (ck : List Nat) (i : Nat) :
    (cacheAux d m ck i).2 = ckIter ck d := by
  induction d generalizing m ck i with
  | zero => rfl
  | succ d ih =>
    show (cacheAux d _ (deriveKeys ck).1 (i + 1)).2 = ckIter ck (d + 1)
    rw [ih, ckIter_succ_front]

theorem cacheAux_fst (d : Nat) (m : Nat → Option (List Nat)) (ck : List Nat) (i : Nat)
    (g : Nat) :
    (cacheAux d m ck i).1 g =
      if i ≤ g ∧ g < i + d then some (ckIter ck (g - i)) else m g := by
  induction d generalizing m ck i with
  | zero =>
    rw [if_neg (by omega)]
    rfl
  | succ d ih =>
    show (cacheAux d (fun g => if g = i then some ck else m g) (deriveKeys ck).1 (i + 1)).1 g = _
    rw [ih]
    by_cases hin : i + 1 ≤ g ∧ g < i + 1 + d
    · rw [if_pos hin, if_pos (by omega)]
      have : g - i = (g - (i + 1)) + 1 := by omega
      rw [this, ckIter_succ_front]
    · rw [if_neg hin]
      by_cases hgi : g = i
      · simp only [if_pos hgi, hgi, if_pos (by omega : i ≤ i ∧ i < i + (d + 1))]
        simp [ckIter]
      · simp only [if_neg hgi, if_neg (by omega : ¬ (i ≤ g ∧ g < i + (d + 1)))]

/-- C10: Receiver.Open is not atomic on decryption failure.
First conjunct (future path): when a message at generation g in the
skip window fails AEAD verification, the receiver has nonetheless
advanced currentGen to g+1, cached chain keys exactly for the
intermediate generations (no key for g itself), and a subsequent
message at generation g — whatever its ciphertext — now fails with
InvalidGeneration.  Second conjunct (cached path): when a message at a
cached past generation fails AEAD verification, the cached entry has
been deleted, the error is returned, and a subsequent message at that
generation fails with InvalidGeneration. -/
theorem C10_open_not_atomic_on_failure :
    (∀ (r : Receiver) (msg : EncMessage) (ad : List Nat) (e : Err),
      msg.Generation ≠ r.currentGen →
      r.chains msg.Generation = none →
      msg.Generation > r.currentGen →
      msg.Generation + 1 < U64 →
      ¬ toInt64 ((msg.Generation + U64 - r.currentGen) % U64) > r.maxSkip →
      aeadOpenWith (deriveKeys (cacheAux (msg.Generation - r.currentGen) r.chains r.current
        r.currentGen).2).2 msg.Ciphertext ad = .error e →
      (r.Open msg ad).1 = .error e ∧
      (r.Open msg ad).2.currentGen = msg.Generation + 1 ∧
      (r.Open msg ad).2.chains msg.Generation = none ∧
      (∀ i, r.currentGen ≤ i → i < msg.Generation →
        (r.Open msg ad).2.chains i = some (ckIter r.current (i - r.currentGen))) ∧
      (∀ (msg₂ : EncMessage) (ad₂ : List Nat), msg₂.Generation = msg.Generation →
        ((r.Open msg ad).2.Open msg₂ ad₂).1 = .error .invalidGeneration)) ∧
    (∀ (r : Receiver) (msg : EncMessage) (ad cached : List Nat) (e : Err),
      msg.Generation < r.currentGen →
      r.chains msg.Generation = some cached →
      aeadOpenWith (deriveKeys cached).2 msg.Ciphertext ad = .error e →
      (r.Open msg ad).1 = .error e ∧
      (r.Open msg ad).2.chains msg.Generation = none ∧
      (r.Open msg ad).2.currentGen = r.currentGen ∧
      (∀ (msg₂ : EncMessage) (ad₂ : List Nat), msg₂.Generation = msg.Generation →
        ((r.Open msg ad).2.Open msg₂ ad₂).1 = .error .invalidGeneration)) := by
  constructor
  · intro r msg ad e h1 h2 h3 hlt h4 hfail
    rw [open_future h1 h2 h3 h4]
    have hgen : ((msg.Generation + 1) % U64) = msg.Generation + 1 := Nat.mod_eq_of_lt hlt
    refine ⟨hfail, hgen, ?_, ?_, ?_⟩
    · show (cacheAux (msg.Generation - r.currentGen) r.chains r.current r.currentGen).1
        msg.Generation = none
      rw [cacheAux_fst, if_neg (by omega)]
      exact h2
    · intro i hle hlt2
      show (cacheAux (msg.Generation - r.currentGen) r.chains r.current r.currentGen).1 i
        = some (ckIter r.current (i - r.currentGen))
      rw [cacheAux_fst, if_pos (by omega)]
    · intro msg₂ ad₂ hg
      have e1 : msg₂.Generation ≠ ((msg.Generation + 1) % U64) := by
        rw [hgen, hg]; omega
      have e2 : (cacheAux (msg.Generation - r.currentGen) r.chains r.current r.currentGen).1
          msg₂.Generation = none := by
        rw [hg, cacheAux_fst, if_neg (by omega)]
        exact h2
      have e3 : ¬ msg₂.Generation > ((msg.Generation + 1) % U64) := by
        rw [hgen, hg]; omega
      rw [open_past e1 e2 e3]
  · intro r msg ad cached e h1 h2 hfail
    have hne : msg.Generation ≠ r.currentGen := by omega
    rw [open_cached hne h2]
    set r2 : Receiver :=
      { r with chains := fun g => if g = msg.Generation then none else r.chains g } with hr2
    refine ⟨hfail, by simp [hr2], rfl, ?_⟩
    intro msg₂ ad₂ hg
    have e1 : msg₂.Generation ≠ r2.currentGen := by
      show msg₂.Generation ≠ r.currentGen
      omega
    have e2 : r2.chains msg₂.Generation = none := by
      show (if msg₂.Generation = msg.Generation then none else r.chains msg₂.Generation) = none
      rw [if_pos hg]
    have e3 : ¬ msg₂.Generation > r2.currentGen := by
      show ¬ msg₂.Generation > r.currentGen
      omega
    exact congrArg Prod.fst (open_past e1 e2 e3)

/-! Infrastructure for the reordered-delivery theorem: sealing a whole
sequence through one chain, opening a whole delivery sequence through
one receiver, and the receiver invariant. -/
theorem ckIter_add (k : List Nat) (a b : Nat) : ckIter (ckIter k a) b = ckIter k (a + b) := by
  induction b with
  | zero => rfl
  | succ b ih =>
    show (deriveKeys (ckIter (ckIter k a) b)).1 = ckIter k (a + (b + 1))
    rw [ih]
    rfl

theorem chainSeal_at (k0 : List Nat) (g : Nat) (pfx pt ad : List Nat)
    (hg : g + 1 ≤ MaxGeneration) :
    Chain.Seal ⟨ckIter k0 g, g⟩ pfx pt ad =
      .ok (sealMsgAt k0 g pfx pt ad, ⟨ckIter k0 (g + 1), g + 1⟩) := by
  rw [Chain.Seal, Chain.Step, if_neg (by simp only [MaxGeneration] at hg ⊢; omega),
    newAEAD_derive]
  have : ((g + 1) % U64) = g + 1 := by
    apply Nat.mod_eq_of_lt
    simp only [MaxGeneration] at hg
    rw [U64]
    omega
  simp only [this]
  rfl

theorem sealSeq_ok (k0 ad : List Nat) :
    ∀ (items : List (List Nat × List Nat)) (g : Nat), g + items.length ≤ MaxGeneration →
    sealSeq ⟨ckIter k0 g, g⟩ ad items =
      .ok (msgsFrom k0 g ad items, ⟨ckIter k0 (g + items.length), g + items.length⟩) := by
  intro items
  induction items with
  | nil => intro g hg; simp [sealSeq, msgsFrom]
  | cons it rest ih =>
    intro g hg
    rw [sealSeq, chainSeal_at k0 g it.1 it.2 ad (by simp at hg; omega)]
    simp only
    rw [ih (g + 1) (by simp at hg ⊢; omega)]
    simp only [msgsFrom, List.length_cons]
    have : g + 1 + rest.length = g + (rest.length + 1) := by omega
    rw [this]

theorem sealSeq_bound (ad : List Nat) :
    ∀ (items : List (List Nat × List Nat)) (c : Chain) (p : List EncMessage × Chain),
    sealSeq c ad items = .ok p → c.generation + items.length ≤ MaxGeneration ∨ items = [] := by
  intro items
  induction items with
  | nil => intro c p _; right; rfl
  | cons it rest ih =>
    intro c p h
    left
    rw [sealSeq] at h
    rcases hs : c.Seal it.1 it.2 ad with e | mc2
    · rw [hs] at h; cases h
    · rw [hs] at h
      rw [Chain.Seal] at hs
      rcases hst : c.Step it.1 with e | agc
      · rw [hst] at hs; cases hs
      · rw [hst] at hs
        rw [Chain.Step] at hst
        by_cases hgen : c.generation ≥ MaxGeneration
        · rw [if_pos hgen] at hst; cases hst
        · simp only at h
          rcases hrest : sealSeq mc2.2 ad rest with e | msf
          · rw [hrest] at h; cases h
          · have hgen2 : mc2.2.generation = (c.generation + 1) % U64 := by
              rw [if_neg hgen] at hst
              rcases hna : newAEAD (deriveKeys c.chainKey).2 it.1 with e | a
              · rw [hna] at hst; cases hst
              · rw [hna] at hst
                simp only at hst
                cases hst
                simp only at hs
                cases hs
                rfl
            have hmod : (c.generation + 1) % U64 = c.generation + 1 := by
              apply Nat.mod_eq_of_lt
              simp only [MaxGeneration] at hgen
              rw [U64]
              omega
            rcases ih mc2.2 msf hrest with hb | hnil
            · rw [hgen2, hmod] at hb
              simp only [List.length_cons]
              omega
            · subst hnil
              simp only [List.length_nil, List.length_cons]
              simp only [MaxGeneration] at hgen ⊢
              omega

theorem msgsFrom_length (k0 ad : List Nat) :
    ∀ (items : List (List Nat × List Nat)) (g : Nat),
    (msgsFrom k0 g ad items).length = items.length := by
  intro items
  induction items with
  | nil => intro g; rfl
  | cons it rest ih => intro g; simp [msgsFrom, ih]

theorem msgsFrom_getD (k0 ad : List Nat) :
    ∀ (items : List (List Nat × List Nat)) (g j : Nat), j < items.length →
    (msgsFrom k0 g ad items).getD j ⟨0, []⟩ =
      sealMsgAt k0 (g + j) (items.getD j ([], [])).1 (items.getD j ([], [])).2 ad := by
  intro items
  induction items with
  | nil => intro g j h; simp at h
  | cons it rest ih =>
    intro g j h
    cases j with
    | zero => simp [msgsFrom]
    | succ j =>
      simp only [msgsFrom, List.getD_cons_succ]
      rw [ih (g + 1) j (by simpa using h)]
      have : g + 1 + j = g + (j + 1) := by omega
      rw [this]

theorem supD_mem {done : List Nat} {d : Nat} (h : d ∈ done) : d + 1 ≤ supD done := by
  induction done with
  | nil => cases h
  | cons x xs ih =>
    rcases List.mem_cons.1 h with rfl | hx
    · simp [supD]
    · have := ih hx
      simp only [supD, List.foldr_cons] at this ⊢
      omega

theorem supD_foldr_init (done : List Nat) (b : Nat) :
    done.foldr (fun d m => max (d + 1) m) b = max (supD done) b := by
  induction done with
  | nil => simp [supD]
  | cons x xs ih =>
    simp only [supD, List.foldr_cons] at ih ⊢
    rw [ih]
    omega

theorem supD_append (done : List Nat) (g : Nat) :
    supD (done ++ [g]) = max (supD done) (g + 1) := by
  rw [supD, List.foldr_append]
  show done.foldr (fun d m => max (d + 1) m) (max (g + 1) 0) = _
  rw [supD_foldr_init]
  omega

theorem supD_le {done : List Nat} {N : Nat} (h : ∀ x ∈ done, x < N) : supD done ≤ N := by
  induction done with
  | nil => simp [supD]
  | cons x xs ih =>
    have hx := h x (List.mem_cons_self x xs)
    have := ih (fun y hy => h y (List.mem_cons_of_mem x hy))
    simp only [supD, List.foldr_cons] at this ⊢
    omega

theorem length_le_supD {done : List Nat} (hnd : done.Nodup) : done.length ≤ supD done := by
  have hsub : done.toFinset ⊆ Finset.range (supD done) := by
    intro x hx
    rw [List.mem_toFinset] at hx
    rw [Finset.mem_range]
    have := supD_mem hx
    omega
  have := Finset.card_le_card hsub
  rw [Finset.card_range, List.toFinset_card_of_nodup hnd] at this
  exact this

theorem maxgen_lt_u64 : MaxGeneration + 1 < U64 := by
  rw [MaxGeneration, U64]
  norm_num

theorem maxgen_lt_2p63 : MaxGeneration < 2 ^ 63 := by
  rw [MaxGeneration]
  norm_num

theorem decrypt_at (k0 : List Nat) (g : Nat) (pfx pt ad : List Nat) (hp : pfx.length = 4) :
    aeadOpenWith (deriveKeys (ckIter k0 g)).2 (sealMsgAt k0 g pfx pt ad).Ciphertext ad
      = .ok pt :=
  aeadOpen_seal ⟨(deriveKeys (ckIter k0 g)).2, pfx, 0⟩ hp pt ad

/-- One step of the reordered-delivery argument: a receiver satisfying
the invariant for the processed set `done` opens the genuine message of
any unprocessed generation `g` that is within 1000 of the number of
messages already processed, recovering the plaintext and restoring the
invariant for `done ++ [g]`. -/
theorem open_step {k0 ad : List Nat} {N : Nat} (hN : N ≤ MaxGeneration)
    {done : List Nat} {st : Receiver} {g : Nat} (pfx pt : List Nat)
    (hInv : InvR k0 done st) (hnd : done.Nodup) (hgdone : g ∉ done)
    (hgN : g < N) (hallN : ∀ x ∈ done, x < N) (hp : pfx.length = 4)
    (hdisp : g ≤ done.length + 1000) :
    (st.Open (sealMsgAt k0 g pfx pt ad) ad).1 = .ok pt ∧
      InvR k0 (done ++ [g]) (st.Open (sealMsgAt k0 g pfx pt ad) ad).2 := by
  obtain ⟨hcg, hck, hms, hch⟩ := hInv
  have hMle : supD done ≤ N := supD_le hallN
  have hgU : g + 1 < U64 := by
    have := maxgen_lt_u64
    omega
  rcases Nat.lt_trichotomy g (supD done) with hlt | heqM | hgt
  · -- cached path: g was skipped earlier and its chain key is cached
    have hcache : st.chains (sealMsgAt k0 g pfx pt ad).Generation = some (ckIter k0 g) := by
      show st.chains g = _
      rw [hch g, if_pos ⟨hlt, hgdone⟩]
    have h1 : (sealMsgAt k0 g pfx pt ad).Generation ≠ st.currentGen := by
      show g ≠ st.currentGen
      omega
    have hsup : supD (done ++ [g]) = supD done := by
      rw [supD_append]
      omega
    rw [open_cached h1 hcache]
    refine ⟨decrypt_at k0 g pfx pt ad hp, ?_, ?_, ?_, ?_⟩
    · show st.currentGen = supD (done ++ [g])
      rw [hsup]
      exact hcg
    · show st.current = ckIter k0 (supD (done ++ [g]))
      rw [hsup]
      exact hck
    · exact hms
    · intro q
      show (if q = (sealMsgAt k0 g pfx pt ad).Generation then none else st.chains q) = _
      show (if q = g then none else st.chains q) = _
      by_cases hq : q = g
      · rw [if_pos hq, if_neg]
        intro hcon
        exact hcon.2 (by rw [hq]; simp)
      · rw [if_neg hq, hch q, hsup]
        by_cases hc : q < supD done ∧ q ∉ done
        · rw [if_pos hc, if_pos ⟨hc.1, by simp [hq, hc.2]⟩]
        · rw [if_neg hc, if_neg]
          intro hcon
          exact hc ⟨hcon.1, fun hmem => hcon.2 (by simp [hmem])⟩
  · -- in-order path: g is exactly the expected next generation
    have h1 : (sealMsgAt k0 g pfx pt ad).Generation = st.currentGen := by
      show g = st.currentGen
      omega
    have h2 : aeadOpenWith (deriveKeys st.current).2
        (sealMsgAt k0 g pfx pt ad).Ciphertext ad = .ok pt := by
      rw [hck, ← heqM]
      exact decrypt_at k0 g pfx pt ad hp
    have hsup : supD (done ++ [g]) = g + 1 := by
      rw [supD_append]
      omega
    rw [open_inorder_ok h1 h2]
    refine ⟨rfl, ?_, ?_, ?_, ?_⟩
    · show (st.currentGen + 1) % U64 = supD (done ++ [g])
      rw [hcg, ← heqM, Nat.mod_eq_of_lt hgU, hsup]
    · show (deriveKeys st.current).1 = ckIter k0 (supD (done ++ [g]))
      rw [hsup, hck, ← heqM]
      rfl
    · exact hms
    · intro q
      show st.chains q = _
      rw [hch q, hsup]
      by_cases hq : q = g
      · rw [if_neg (by omega), if_neg]
        intro hcon
        exact hcon.2 (by rw [hq]; simp)
      · by_cases hc : q < supD done ∧ q ∉ done
        · rw [if_pos hc, if_pos ⟨by omega, by simp [hq, hc.2]⟩]
        · rw [if_neg hc, if_neg]
          intro hcon
          refine hc ⟨by omega, fun hmem => hcon.2 (by simp [hmem])⟩
  · -- future path: skip ahead, caching the intermediate chain keys
    have h1 : (sealMsgAt k0 g pfx pt ad).Generation ≠ st.currentGen := by
      show g ≠ st.currentGen
      omega
    have h2 : st.chains (sealMsgAt k0 g pfx pt ad).Generation = none := by
      show st.chains g = none
      rw [hch g, if_neg (by omega)]
    have h3 : (sealMsgAt k0 g pfx pt ad).Generation > st.currentGen := by
      show g > st.currentGen
      omega
    have h4 : ¬ toInt64 (((sealMsgAt k0 g pfx pt ad).Generation + U64 - st.currentGen) % U64)
        > st.maxSkip := by
      have hskipval : (g + U64 - st.currentGen) % U64 = g - supD done := by
        rw [hcg]
        have hrw : g + U64 - supD done = (g - supD done) + U64 := by omega
        rw [hrw, Nat.add_mod_right]
        exact Nat.mod_eq_of_lt (by omega)
      show ¬ toInt64 ((g + U64 - st.currentGen) % U64) > st.maxSkip
      rw [hskipval, hms, toInt64, if_pos (by have := maxgen_lt_2p63; omega)]
      have hle : g - supD done ≤ 1000 := by
        have := length_le_supD hnd
        omega
      omega
    have hkey : (cacheAux ((sealMsgAt k0 g pfx pt ad).Generation - st.currentGen)
        st.chains st.current st.currentGen).2 = ckIter k0 g := by
      rw [cacheAux_snd, hck, ckIter_add]
      show ckIter k0 (supD done + (g - st.currentGen)) = _
      rw [hcg]
      congr 1
      omega
    have hsup : supD (done ++ [g]) = g + 1 := by
      rw [supD_append]
      omega
    rw [open_future h1 h2 h3 h4]
    refine ⟨?_, ?_, ?_, ?_, ?_⟩
    · show aeadOpenWith (deriveKeys (cacheAux ((sealMsgAt k0 g pfx pt ad).Generation
        - st.currentGen) st.chains st.current st.currentGen).2).2
        (sealMsgAt k0 g pfx pt ad).Ciphertext ad = .ok pt
      rw [hkey]
      exact decrypt_at k0 g pfx pt ad hp
    · show ((sealMsgAt k0 g pfx pt ad).Generation + 1) % U64 = supD (done ++ [g])
      show (g + 1) % U64 = supD (done ++ [g])
      rw [Nat.mod_eq_of_lt hgU, hsup]
    · show (deriveKeys (cacheAux ((sealMsgAt k0 g pfx pt ad).Generation - st.currentGen)
        st.chains st.current st.currentGen).2).1 = ckIter k0 (supD (done ++ [g]))
      rw [hkey, hsup]
      rfl
    · exact hms
    · intro q
      show (cacheAux ((sealMsgAt k0 g pfx pt ad).Generation - st.currentGen)
        st.chains st.current st.currentGen).1 q = _
      have hq1 : (sealMsgAt k0 g pfx pt ad).Generation = g := rfl
      rw [hq1, cacheAux_fst, hcg, hck, hsup]
      have hdage : ∀ x ∈ done, x < supD done := by
        intro x hx
        have := supD_mem hx
        omega
      by_cases hc1 : supD done ≤ q ∧ q < supD done + (g - supD done)
      · rw [if_pos hc1, ckIter_add, if_pos]
        · have harg : supD done + (q - supD done) = q := by omega
          rw [harg]
        · refine ⟨by omega, ?_⟩
          simp only [List.mem_append, List.mem_singleton]
          rintro (hmem | rfl)
          · have := hdage q hmem
            omega
          · omega
      · rw [if_neg hc1, hch q]
        by_cases hq : q = g
        · rw [if_neg (by omega), if_neg]
          intro hcon
          exact hcon.2 (by rw [hq]; simp)
        · by_cases hc : q < supD done ∧ q ∉ done
          · rw [if_pos hc, if_pos ⟨by omega, by simp [hq, hc.2]⟩]
          · rw [if_neg hc, if_neg]
            intro hcon
            refine hc ⟨?_, fun hmem => hcon.2 (by simp [hmem])⟩
            rcases Nat.lt_or_ge q (supD done) with hq2 | hq2
            · exact hq2
            · exfalso
              have hq3 : q < g + 1 := hcon.1
              omega

/-- Processing any tail of the delivery schedule from a receiver
satisfying the invariant recovers all plaintexts, provided every
delivery position moves its message at most 1000 places forward. -/
theorem openAll_spec {k0 ad : List Nat} {N : Nat} (hN : N ≤ MaxGeneration)
    (pfxs pts : Nat → List Nat) (hplen : ∀ i, i < N → (pfxs i).length = 4) :
    ∀ (rest done : List Nat) (st : Receiver),
    InvR k0 done st →
    (done ++ rest).Nodup →
    (∀ x ∈ done ++ rest, x < N) →
    (∀ q, q < rest.length → rest.getD q 0 ≤ done.length + q + 1000) →
    ∃ rf, openAll st ad (rest.map (fun i => sealMsgAt k0 i (pfxs i) (pts i) ad)) =
      .ok (rest.map pts, rf) := by
  intro rest
  induction rest with
  | nil =>
    intro done st hInv _ _ _
    exact ⟨st, rfl⟩
  | cons g rest ih =>
    intro done st hInv hnd hbnd hdisp
    obtain ⟨hnd1, hnd2, hdisj⟩ := List.nodup_append.1 hnd
    have hgdone : g ∉ done := fun hmem => hdisj hmem (List.mem_cons_self g rest)
    have hgN : g < N := hbnd g (by simp)
    have hallN : ∀ x ∈ done, x < N := fun x hx => hbnd x (by simp [hx])
    have hd0 : g ≤ done.length + 1000 := by
      have := hdisp 0 (by simp)
      simpa using this
    obtain ⟨hfst, hinv2⟩ := open_step hN (pfxs g) (pts g) hInv hnd1 hgdone hgN hallN
      (hplen g hgN) hd0
    have hopen : st.Open (sealMsgAt k0 g (pfxs g) (pts g) ad) ad
        = (.ok (pts g), (st.Open (sealMsgAt k0 g (pfxs g) (pts g) ad) ad).2) :=
      Prod.ext hfst rfl
    have hih := ih (done ++ [g]) ((st.Open (sealMsgAt k0 g (pfxs g) (pts g) ad) ad).2)
      hinv2
      (by rw [List.append_assoc]; simpa using hnd)
      (by
        intro x hx
        apply hbnd
        rw [List.append_assoc] at hx
        simpa using hx)
      (by
        intro q hq
        have := hdisp (q + 1) (by simpa using Nat.succ_lt_succ hq)
        simp only [List.getD_cons_succ] at this
        simp only [List.length_append, List.length_singleton]
        omega)
    obtain ⟨rf, hrec⟩ := hih
    refine ⟨rf, ?_⟩
    rw [List.map_cons, openAll, hopen]
    simp only
    rw [hrec]
    rfl

/-- C2: messages sealed in order through one ratchet chain and delivered
to a fresh receiver with maxSkip = 1000 in any permutation that moves
each message at most 1000 positions from its seal order are all opened
successfully, each Open returning the original plaintext of the
corresponding message. -/
theorem C2_ratchet_reordered_delivery
    (k0 ad : List Nat) (items : List (List Nat × List Nat)) (c0 : Chain)
    (msgs : List EncMessage) (cf : Chain) (r0 : Receiver) (order : List Nat)
    (hchain : newChain k0 = .ok c0)
    (hseal : sealSeq c0 ad items = .ok (msgs, cf))
    (hpfx : ∀ it ∈ items, it.1.length = 4)
    (hrecv : newReceiver k0 1000 = .ok r0)
    (hperm : order.Perm (List.range items.length))
    (hdisp : ∀ q, q < order.length → order.getD q 0 ≤ q + 1000)
    (hdisp2 : ∀ q, q < order.length → q ≤ order.getD q 0 + 1000) :
    ∃ rf, openAll r0 ad (order.map (fun i => msgs.getD i ⟨0, []⟩)) =
      .ok (order.map (fun i => (items.getD i ([], [])).2), rf) := by
  have hc0 : c0 = ⟨k0, 0⟩ := by
    rw [newChain] at hchain
    split at hchain
    · cases hchain; rfl
    · cases hchain
  have hr0 : r0 = ⟨fun _ => none, k0, 0, 1000⟩ := by
    rw [newReceiver] at hrecv
    split at hrecv
    · cases hrecv
      rfl
    · cases hrecv
  have hNbound : items.length ≤ MaxGeneration := by
    rcases sealSeq_bound ad items c0 (msgs, cf) hseal with hb | hnil
    · rw [hc0] at hb
      simpa using hb
    · rw [hnil]
      simp [MaxGeneration]
  have hmsgs : msgs = msgsFrom k0 0 ad items := by
    have hok := sealSeq_ok k0 ad items 0 (by simpa using hNbound)
    have hck0 : (⟨ckIter k0 0, 0⟩ : Chain) = ⟨k0, 0⟩ := rfl
    rw [hck0, ← hc0, hseal] at hok
    cases hok
    rfl
  have hmap : order.map (fun i => msgs.getD i ⟨0, []⟩)
      = order.map (fun i =>
          sealMsgAt k0 i (items.getD i ([], [])).1 (items.getD i ([], [])).2 ad) := by
    apply List.map_congr_left
    intro i hi
    have hiN : i < items.length := by
      have := hperm.mem_iff.1 hi
      simpa [List.mem_range] using this
    rw [hmsgs, msgsFrom_getD k0 ad items 0 i hiN]
    simp
  rw [hmap]
  refine openAll_spec hNbound
    (fun i => (items.getD i ([], [])).1) (fun i => (items.getD i ([], [])).2)
    (fun i hi => ?_) order [] r0 ?_ ?_ ?_ ?_
  · have hmem : items.getD i ([], []) ∈ items := by
      rw [List.getD_eq_getElem _ _ hi]
      exact List.getElem_mem hi
    exact hpfx _ hmem
  · refine ⟨?_, ?_, ?_, ?_⟩
    · rw [hr0]; rfl
    · rw [hr0]; rfl
    · rw [hr0]
    · intro g
      rw [hr0]
      show none = _
      rw [if_neg]
      intro hcon
      exact Nat.not_lt_zero g hcon.1
  · show ([] ++ order).Nodup
    simpa using hperm.nodup_iff.2 (List.nodup_range _)
  · intro x hx
    have : x ∈ order := by simpa using hx
    have := hperm.mem_iff.1 this
    simpa [List.mem_range] using this
  · intro q hq
    have := hdisp q hq
    simpa using this

/-- Concrete instantiation of C2_ratchet_reordered_delivery: three
messages m0 m1 m2 sealed in order and delivered as m2, m0, m1 all
decrypt to their original plaintexts. -/
theorem C2_ratchet_reordered_delivery_witness :
    ∃ msgs cf rf,
      sealSeq ⟨k0w, 0⟩ [5] itemsw = .ok (msgs, cf) ∧
      openAll r0w [5] ([2, 0, 1].map (fun i => msgs.getD i ⟨0, []⟩)) =
        .ok ([[12], [10], [11]], rf) := by
  have hseal : sealSeq ⟨k0w, 0⟩ [5] itemsw =
      .ok (msgsFrom k0w 0 [5] itemsw, ⟨ckIter k0w 3, 3⟩) := by
    have := sealSeq_ok k0w [5] itemsw 0 (by norm_num [MaxGeneration, itemsw])
    simpa [itemsw] using this
  have hmain := C2_ratchet_reordered_delivery k0w [5] itemsw ⟨k0w, 0⟩
    (msgsFrom k0w 0 [5] itemsw) ⟨ckIter k0w 3, 3⟩ r0w [2, 0, 1]
    (by rfl) hseal (by decide) (by rfl)
    (by decide) (by decide) (by decide)
  obtain ⟨rf, hopen⟩ := hmain
  exact ⟨msgsFrom k0w 0 [5] itemsw, ⟨ckIter k0w 3, 3⟩, rf, hseal, hopen⟩

/-- Concrete instantiation of both scenarios of
C10_open_not_atomic_on_failure (empty ciphertexts, which the AEAD layer
rejects as too short). -/
theorem C10_open_not_atomic_on_failure_witness :
    ((recvZero.Open ⟨2, []⟩ []).1 = .error .ciphertextTooShort ∧
      (recvZero.Open ⟨2, []⟩ []).2.currentGen = 3 ∧
      (recvZero.Open ⟨2, []⟩ []).2.chains 2 = none ∧
      ((recvZero.Open ⟨2, []⟩ []).2.Open ⟨2, [9]⟩ []).1 = .error .invalidGeneration) ∧
    ((recvCached.Open ⟨0, []⟩ []).1 = .error .ciphertextTooShort ∧
      (recvCached.Open ⟨0, []⟩ []).2.chains 0 = none ∧
      ((recvCached.Open ⟨0, []⟩ []).2.Open ⟨0, [9]⟩ []).1 = .error .invalidGeneration) := by
  have hA := C10_open_not_atomic_on_failure.1 recvZero ⟨2, []⟩ [] .ciphertextTooShort
    (by simp [recvZero]) rfl (by simp [recvZero]) (by rw [U64]; norm_num)
    (by
      have hm : ((2 + U64 - 0) % U64 : Nat) = 2 := by
        rw [U64]; norm_num
      show ¬ toInt64 ((2 + U64 - 0) % U64) > (1000 : Int)
      rw [hm, toInt64, if_pos (by norm_num)]
      norm_num)
    (by rw [aeadOpenWith, if_pos (by simp)])
  have hB := C10_open_not_atomic_on_failure.2 recvCached ⟨0, []⟩ [] (List.replicate 32 1)
    .ciphertextTooShort (by simp [recvCached]) rfl
    (by rw [aeadOpenWith, if_pos (by simp)])
  exact ⟨⟨hA.1, hA.2.1, hA.2.2.1, hA.2.2.2.2 ⟨2, [9]⟩ [] rfl⟩,
    ⟨hB.1, hB.2.1, hB.2.2.2 ⟨0, [9]⟩ [] rfl⟩⟩

theorem nodesF_leaf (leaves : List (List Nat)) (i : Nat) :
    nodesF leaves (leaves.length - 1 + i) = leaves.getD i [] := by
  rw [nodesF, dif_pos (by omega)]
  congr 1
  omega

theorem nodesF_internal (leaves : List (List Nat)) (p : Nat) (h : p < leaves.length - 1) :
    nodesF leaves p = SHA256 (nodesF leaves (2 * p + 1) ++ nodesF leaves (2 * p + 2)) := by
  rw [nodesF, dif_neg (by omega)]

theorem verifyFold_cons_true (cur s : List Nat) (rest : List (List Nat × Bool)) :
    verifyFold cur ((s, true) :: rest) = verifyFold (SHA256 (s ++ cur)) rest := rfl

theorem verifyFold_cons_false (cur s : List Nat) (rest : List (List Nat × Bool)) :
    verifyFold cur ((s, false) :: rest) = verifyFold (SHA256 (cur ++ s)) rest := rfl

/-- Verifying from any array position with the siblings collected by
`proofWalk` reproduces the root. -/
theorem walk_fold (leaves : List (List Nat)) :
    ∀ idx, idx ≤ 2 * leaves.length - 2 →
    verifyFold (nodesF leaves idx) ((proofWalk leaves idx).1.zip (proofWalk leaves idx).2)
      = nodesF leaves 0 := by
  intro idx
  induction idx using Nat.strong_induction_on with
  | _ idx ih =>
    intro hidx
    by_cases h0 : idx = 0
    · subst h0
      rw [proofWalk]
      simp [verifyFold]
    · rw [proofWalk, dif_neg h0]
      have hn2 : 2 ≤ leaves.length := by omega
      have hplt : (idx - 1) / 2 < idx := by omega
      have hple : (idx - 1) / 2 ≤ 2 * leaves.length - 2 := by omega
      have hpint : (idx - 1) / 2 < leaves.length - 1 := by omega
      by_cases hodd : idx % 2 = 1
      · rw [if_pos hodd]
        have hdec : decide (idx % 2 = 0) = false := by
          apply decide_eq_false
          omega
        rw [hdec]
        simp only [List.zip_cons_cons]
        rw [verifyFold_cons_false]
        have hstep : SHA256 (nodesF leaves idx ++ nodesF leaves (idx + 1))
            = nodesF leaves ((idx - 1) / 2) := by
          rw [nodesF_internal leaves ((idx - 1) / 2) hpint,
            show 2 * ((idx - 1) / 2) + 1 = idx from by omega,
            show 2 * ((idx - 1) / 2) + 2 = idx + 1 from by omega]
        rw [hstep]
        exact ih ((idx - 1) / 2) hplt hple
      · rw [if_neg hodd]
        have hdec : decide (idx % 2 = 0) = true := by
          apply decide_eq_true
          omega
        rw [hdec]
        simp only [List.zip_cons_cons]
        rw [verifyFold_cons_true]
        have hstep : SHA256 (nodesF leaves (idx - 1) ++ nodesF leaves idx)
            = nodesF leaves ((idx - 1) / 2) := by
          rw [nodesF_internal leaves ((idx - 1) / 2) hpint,
            show 2 * ((idx - 1) / 2) + 1 = idx - 1 from by omega,
            show 2 * ((idx - 1) / 2) + 2 = idx from by omega]
        rw [hstep]
        exact ih ((idx - 1) / 2) hplt hple

theorem proofWalk_lengths (leaves : List (List Nat)) :
    ∀ idx, (proofWalk leaves idx).1.length = (proofWalk leaves idx).2.length := by
  intro idx
  induction idx using Nat.strong_induction_on with
  | _ idx ih =>
    by_cases h0 : idx = 0
    · subst h0
      rw [proofWalk]
      rfl
    · rw [proofWalk, dif_neg h0]
      simp only [List.length_cons]
      rw [ih ((idx - 1) / 2) (by omega)]

/-- The verification fold is injective in its starting value. -/
theorem verifyFold_inj : ∀ (pairs : List (List Nat × Bool)) (c₁ c₂ : List Nat), c₁ ≠ c₂ →
    verifyFold c₁ pairs ≠ verifyFold c₂ pairs := by
  intro pairs
  induction pairs with
  | nil => intro c₁ c₂ h; exact h
  | cons sb rest ih =>
    intro c₁ c₂ h
    rcases sb with ⟨s, b⟩
    cases b
    · rw [verifyFold_cons_false, verifyFold_cons_false]
      apply ih
      intro hcon
      exact h (List.append_cancel_right (SHA256_inj hcon))
    · rw [verifyFold_cons_true, verifyFold_cons_true]
      apply ih
      intro hcon
      exact h (List.append_cancel_left (SHA256_inj hcon))

/-- Replacing the sibling at one level by a different value changes the
verification fold's outcome. -/
theorem verifyFold_set_sib : ∀ (sibs : List (List Nat)) (flags : List Bool)
    (j : Nat) (s₂ c : List Nat), j < sibs.length → j < flags.length →
    s₂ ≠ sibs.getD j [] →
    verifyFold c ((sibs.set j s₂).zip flags) ≠ verifyFold c (sibs.zip flags) := by
  intro sibs
  induction sibs with
  | nil => intro flags j s₂ c hj _ _; simp at hj
  | cons s ss ih =>
    intro flags j s₂ c hj hjf hne
    cases flags with
    | nil => simp at hjf
    | cons b bs =>
      cases j with
      | zero =>
        simp only [List.set_cons_zero, List.zip_cons_cons]
        have hne0 : s₂ ≠ s := by simpa using hne
        cases b
        · rw [verifyFold_cons_false, verifyFold_cons_false]
          apply verifyFold_inj
          intro hcon
          exact hne0 (List.append_cancel_left (SHA256_inj hcon))
        · rw [verifyFold_cons_true, verifyFold_cons_true]
          apply verifyFold_inj
          intro hcon
          exact hne0 (List.append_cancel_right (SHA256_inj hcon))
      | succ j =>
        simp only [List.set_cons_succ, List.zip_cons_cons]
        cases b
        · rw [verifyFold_cons_false, verifyFold_cons_false]
          exact ih bs j s₂ _ (by simpa using hj) (by simpa using hjf) (by simpa using hne)
        · rw [verifyFold_cons_true, verifyFold_cons_true]
          exact ih bs j s₂ _ (by simpa using hj) (by simpa using hjf) (by simpa using hne)

/-- Changing one entry of a list at an in-range position to a different
value yields a different list. -/
theorem set_ne_self {α : Type} {l : List α} {p : Nat} {v d : α}
    (hp : p < l.length) (hv : v ≠ l.getD p d) : l.set p v ≠ l := by
  intro h
  apply hv
  have : (l.set p v).getD p d = l.getD p d := by rw [h]
  rw [List.getD_eq_getElem _ _ (by simpa using hp), List.getElem_set_self,
    List.getD_eq_getElem _ _ hp] at this
  rw [List.getD_eq_getElem _ _ hp]
  exact this

/-- C5: for every tree built from a non-empty list of chunk hashes and
every index in range, the generated proof verifies against the root;
and flipping any byte of the proof's chunk hash, or any byte of any
sibling, makes VerifyProof fail with MerkleProofFail. -/
theorem C5_merkle_proof_roundtrip_and_tamper
    (chunkHashes : List (List Nat)) (t : MerkleTree) (i : Nat) (pr : Proof)
    (hbuild : BuildMerkleTree chunkHashes = .ok t)
    (hgen : t.GenerateProof i = .ok pr) :
    VerifyProof pr t.root = .ok () ∧
    (∀ p v, p < pr.ChunkHash.length → v ≠ pr.ChunkHash.getD p 0 →
      VerifyProof { pr with ChunkHash := pr.ChunkHash.set p v } t.root
        = .error .merkleProofFail) ∧
    (∀ j p v, j < pr.Siblings.length → p < (pr.Siblings.getD j []).length →
      v ≠ (pr.Siblings.getD j []).getD p 0 →
      VerifyProof { pr with Siblings := pr.Siblings.set j ((pr.Siblings.getD j []).set p v) }
        t.root = .error .merkleProofFail) := by
  rw [BuildMerkleTree] at hbuild
  split at hbuild
  · cases hbuild
  · rename_i hne
    simp only at hbuild
    cases hbuild
    rw [MerkleTree.GenerateProof] at hgen
    split at hgen
    · cases hgen
    · rename_i hilt
      simp only at hgen
      cases hgen
      set leaves := chunkHashes ++
        List.replicate (nextPow2Loop 1 chunkHashes.length - chunkHashes.length) (SHA256 [])
        with hleaves
      have hi : i < leaves.length := Nat.lt_of_not_le hilt
      have hfold : verifyFold (leaves.getD i [])
          ((proofWalk leaves (leaves.length - 1 + i)).1.zip
            (proofWalk leaves (leaves.length - 1 + i)).2) = nodesF leaves 0 := by
        rw [← nodesF_leaf leaves i]
        exact walk_fold leaves (leaves.length - 1 + i) (by omega)
      refine ⟨?_, ?_, ?_⟩
      · rw [VerifyProof]
        simp only
        rw [if_pos hfold]
      · intro p v hp hv
        rw [VerifyProof]
        simp only
        rw [if_neg]
        rw [← hfold]
        apply verifyFold_inj
        exact set_ne_self hp hv
      · intro j p v hj hp hv
        rw [VerifyProof]
        simp only
        rw [if_neg]
        rw [← hfold]
        apply verifyFold_set_sib _ _ j _ _ hj
          (by rw [← proofWalk_lengths]; exact hj)
        exact set_ne_self hp hv

theorem mt2_build : BuildMerkleTree [leaf0, leaf1] = .ok mt2 := by
  rw [BuildMerkleTree, if_neg (by simp)]
  have hpow : nextPow2Loop 1 ([leaf0, leaf1]).length = 2 := by
    show nextPow2Loop 1 2 = 2
    rw [nextPow2Loop, dif_pos (by omega)]
    show nextPow2Loop 2 2 = 2
    rw [nextPow2Loop, dif_neg (by omega)]
  simp only [hpow]
  have hleaves : [leaf0, leaf1] ++ List.replicate (2 - ([leaf0, leaf1]).length) (SHA256 [])
      = [leaf0, leaf1] := by
    simp
  rw [hleaves]
  have hroot : nodesF [leaf0, leaf1] 0 = SHA256 (leaf0 ++ leaf1) := by
    rw [nodesF_internal [leaf0, leaf1] 0 (by simp)]
    have h1 : nodesF [leaf0, leaf1] 1 = leaf0 := nodesF_leaf [leaf0, leaf1] 0
    have h2 : nodesF [leaf0, leaf1] 2 = leaf1 := by
      have := nodesF_leaf [leaf0, leaf1] 1
      simpa using this
    simp only [show 2 * 0 + 1 = 1 from rfl, show 2 * 0 + 2 = 2 from rfl, h1, h2]
  rw [hroot]
  rfl

theorem mt2_gen : mt2.GenerateProof 0 = .ok pr2 := by
  rw [MerkleTree.GenerateProof, if_neg (by simp [mt2])]
  have hwalk : proofWalk mt2.leaves (mt2.leaves.length - 1 + 0) = ([leaf1], [false]) := by
    show proofWalk [leaf0, leaf1] 1 = ([leaf1], [false])
    rw [proofWalk, dif_neg one_ne_zero]
    have hw0 : proofWalk [leaf0, leaf1] ((1 - 1) / 2) = ([], []) := by
      rw [proofWalk, dif_pos rfl]
    rw [if_pos (by omega : 1 % 2 = 1)]
    have h2 : nodesF [leaf0, leaf1] (1 + 1) = leaf1 := by
      have := nodesF_leaf [leaf0, leaf1] 1
      simpa using this
    rw [hw0]
    dsimp only
    rw [h2]
    norm_num
  rw [hwalk]
  rfl

/-- Concrete instantiation of C5_merkle_proof_roundtrip_and_tamper on
the two-leaf tree: the genuine proof for index 0 verifies, and flipping
byte 0 of the chunk hash or of the sibling makes verification fail. -/
theorem C5_merkle_proof_roundtrip_and_tamper_witness :
    BuildMerkleTree [leaf0, leaf1] = .ok mt2 ∧
    mt2.GenerateProof 0 = .ok pr2 ∧
    VerifyProof pr2 mt2.root = .ok () ∧
    VerifyProof { pr2 with ChunkHash := pr2.ChunkHash.set 0 9 } mt2.root
      = .error .merkleProofFail ∧
    VerifyProof { pr2 with Siblings := pr2.Siblings.set 0 ((pr2.Siblings.getD 0 []).set 0 9) }
      mt2.root = .error .merkleProofFail := by
  have h := C5_merkle_proof_roundtrip_and_tamper [leaf0, leaf1] mt2 0 pr2 mt2_build mt2_gen
  refine ⟨mt2_build, mt2_gen, h.1, ?_, ?_⟩
  · exact h.2.1 0 9 (by simp [pr2, leaf0]) (by simp [pr2, leaf0])
  · exact h.2.2 0 0 9 (by simp [pr2]) (by simp [pr2, leaf1]) (by simp [pr2, leaf1])

/-- C6 counterexample: for the tree built from exactly one chunk hash,
the root is the leaf hash itself (1 is already a power of two, so the
padding rule adds nothing), not SHA-256(leaf || SHA-256("")) as the
claim states. -/
theorem C6_single_leaf_counterexample :
    BuildMerkleTree [List.replicate 32 0] = .ok mt1 ∧
    mt1.root = List.replicate 32 0 ∧
    mt1.root ≠ SHA256 (List.replicate 32 0 ++ SHA256 []) := by
  refine ⟨?_, rfl, ?_⟩
  · rw [BuildMerkleTree, if_neg (by simp)]
    have hp2 : nextPow2Loop 1 ([List.replicate 32 (0 : Nat)]).length = 1 := by
      rw [nextPow2Loop]
      simp
    simp only [hp2]
    have hleaves : [List.replicate 32 (0 : Nat)] ++
        List.replicate (1 - ([List.replicate 32 (0 : Nat)]).length) (SHA256 [])
        = [List.replicate 32 (0 : Nat)] := by
      simp
    rw [hleaves]
    have hroot : nodesF [List.replicate 32 (0 : Nat)] 0 = List.replicate 32 0 := by
      rw [nodesF, dif_pos (by simp)]
      rfl
    rw [hroot]
    rfl
  · intro h
    have h0 := congrArg (fun l => l.getD 0 0) h
    simp only [SHA256, List.getD_cons_zero] at h0
    have h0z : (0 : Nat) = 256 + encL (List.replicate 32 0 ++ (256 + encL []) :: List.replicate 31 0) := h0
    omega

/-- C6 amended: for a tree built from exactly one chunk hash, the root
equals that chunk hash (no padding occurs since 1 is already a power of
two). -/
theorem C6_single_leaf_root (h : List Nat) :
    BuildMerkleTree [h] = .ok ⟨[h], h⟩ := by
  rw [BuildMerkleTree, if_neg (by simp)]
  have hp2 : nextPow2Loop 1 ([h]).length = 1 := by
    rw [nextPow2Loop]
    simp
  simp only [hp2]
  have hleaves : [h] ++ List.replicate (1 - ([h]).length) (SHA256 []) = [h] := by
    simp
  rw [hleaves]
  have hroot : nodesF [h] 0 = h := by
    rw [nodesF, dif_pos (by simp)]
    rfl
  rw [hroot]

theorem bubbleMin_length (c : Chunk) : ∀ xs, (bubbleMin c xs).2.length = xs.length := by
  intro xs
  induction xs generalizing c with
  | nil => rfl
  | cons x xs ih =>
    rw [bubbleMin]
    split
    · simp only [List.length_cons, ih]
    · simp only [List.length_cons, ih]

theorem bubbleMin_perm (c : Chunk) : ∀ xs,
    ((bubbleMin c xs).1 :: (bubbleMin c xs).2).Perm (c :: xs) := by
  intro xs
  induction xs generalizing c with
  | nil => exact List.Perm.refl _
  | cons x xs ih =>
    rw [bubbleMin]
    split
    · exact (List.Perm.swap c _ _).trans ((ih x).cons c)
    · exact ((List.Perm.swap x _ _).trans ((ih c).cons x)).trans (List.Perm.swap c x xs)

theorem bubbleMin_fst_le (c : Chunk) : ∀ xs, (bubbleMin c xs).1.Index ≤ c.Index := by
  intro xs
  induction xs generalizing c with
  | nil => exact Nat.le_refl _
  | cons x xs ih =>
    rw [bubbleMin]
    split
    · rename_i hx
      exact Nat.le_trans (ih x) (Nat.le_of_lt hx)
    · exact ih c

theorem bubbleMin_min (c : Chunk) : ∀ xs, ∀ y ∈ (bubbleMin c xs).2,
    (bubbleMin c xs).1.Index ≤ y.Index := by
  intro xs
  induction xs generalizing c with
  | nil => intro y hy; cases hy
  | cons x xs ih =>
    rw [bubbleMin]
    split
    · rename_i hx
      intro y hy
      rcases List.mem_cons.1 hy with rfl | hy
      · exact Nat.le_trans (bubbleMin_fst_le x xs) (Nat.le_of_lt hx)
      · exact ih x y hy
    · rename_i hx
      intro y hy
      rcases List.mem_cons.1 hy with rfl | hy
      · exact Nat.le_trans (bubbleMin_fst_le c xs) (Nat.le_of_not_lt hx)
      · exact ih c y hy

theorem selSortGo_perm : ∀ (f : Nat) (l : List Chunk), (selSortGo f l).Perm l := by
  intro f
  induction f with
  | zero =>
    intro l
    cases l with
    | nil => exact List.Perm.refl _
    | cons c xs => exact List.Perm.refl _
  | succ f ih =>
    intro l
    cases l with
    | nil => exact List.Perm.refl _
    | cons c xs =>
      rw [selSortGo]
      exact ((ih (bubbleMin c xs).2).cons _).trans (bubbleMin_perm c xs)

theorem selSortGo_sorted : ∀ (f : Nat) (l : List Chunk), l.length ≤ f →
    (selSortGo f l).Pairwise (fun a b => a.Index ≤ b.Index) := by
  intro f
  induction f with
  | zero =>
    intro l hl
    have hnil : l = [] := List.eq_nil_of_length_eq_zero (Nat.le_zero.1 hl)
    subst hnil
    exact List.Pairwise.nil
  | succ f ih =>
    intro l hl
    cases l with
    | nil => exact List.Pairwise.nil
    | cons c xs =>
      rw [selSortGo, List.pairwise_cons]
      constructor
      · intro y hy
        have hmem : y ∈ (bubbleMin c xs).2 :=
          ((selSortGo_perm f (bubbleMin c xs).2).mem_iff).1 hy
        exact bubbleMin_min c xs y hmem
      · apply ih
        rw [bubbleMin_length]
        simpa using hl

theorem splitGo_indices (cs : Nat) : ∀ (n : Nat) (data : List Nat), data.length ≤ n →
    ∀ idx, (splitGo cs data idx).map Chunk.Index
      = List.range' idx (splitGo cs data idx).length 1 := by
  intro n
  induction n with
  | zero =>
    intro data hlen idx
    rw [splitGo, dif_pos (by omega)]
    rfl
  | succ n ih =>
    intro data hlen idx
    rw [splitGo]
    split
    · rfl
    · rename_i hcond
      simp only [List.map_cons, List.length_cons]
      rw [ih (data.drop cs) (by simp only [List.length_drop]; omega) (idx + 1),
        List.range'_succ idx _ 1]

theorem splitGo_data (cs : Nat) (hcs : 0 < cs) : ∀ (n : Nat) (data : List Nat),
    data.length ≤ n → ∀ idx, (splitGo cs data idx).flatMap Chunk.Data = data := by
  intro n
  induction n with
  | zero =>
    intro data hlen idx
    rw [splitGo, dif_pos (by omega)]
    have : data = [] := List.eq_nil_of_length_eq_zero (Nat.le_zero.1 hlen)
    rw [this]
    rfl
  | succ n ih =>
    intro data hlen idx
    rw [splitGo]
    split
    · rename_i hcond
      rcases hcond with hc | hc
      · rw [List.eq_nil_of_length_eq_zero hc]
        rfl
      · omega
    · rename_i hcond
      simp only [List.flatMap_cons]
      rw [ih (data.drop cs) (by simp only [List.length_drop]; omega) (idx + 1)]
      exact List.take_append_drop cs data

theorem pairwise_lt_of_le_nodup {l : List Chunk}
    (hle : l.Pairwise (fun a b => a.Index ≤ b.Index))
    (hnd : (l.map Chunk.Index).Nodup) : l.Pairwise chunkLT := by
  have hne : l.Pairwise (fun a b => a.Index ≠ b.Index) := (List.pairwise_map).1 hnd
  exact (hle.and hne).imp (fun h => Nat.lt_of_le_of_ne h.1 h.2)

/-- C8: for every byte string and every chunk size > 0, reassembling
the chunks produced by Split — presented in any order — recovers the
original data; Split of empty input yields no chunks, and Reassemble of
no chunks yields empty data. -/
theorem C8_split_reassemble_roundtrip (data : List Nat) (chunkSize : Nat)
    (hcs : 0 < chunkSize) (delivered : List Chunk)
    (hperm : delivered.Perm (chunkerSplit chunkSize data)) :
    Reassemble delivered = data ∧
    chunkerSplit chunkSize [] = [] ∧
    Reassemble [] = [] := by
  refine ⟨?_, ?_, rfl⟩
  · have hperm2 : (selSortGo delivered.length delivered).Perm (chunkerSplit chunkSize data) :=
      (selSortGo_perm _ _).trans hperm
    have hsortle := selSortGo_sorted delivered.length delivered (Nat.le_refl _)
    have hidx : (chunkerSplit chunkSize data).map Chunk.Index
        = List.range' 0 (chunkerSplit chunkSize data).length 1 :=
      splitGo_indices chunkSize data.length data (Nat.le_refl _) 0
    have hnd_split : ((chunkerSplit chunkSize data).map Chunk.Index).Nodup := by
      rw [hidx]
      exact List.nodup_range' _ _ 1 Nat.one_pos
    have hlt_split : (chunkerSplit chunkSize data).Pairwise chunkLT := by
      have hmap : ((chunkerSplit chunkSize data).map Chunk.Index).Pairwise (· < ·) := by
        rw [hidx]
        exact List.pairwise_lt_range' _ _ 1 Nat.one_pos
      have h2 : (chunkerSplit chunkSize data).Pairwise
          (fun a b => Chunk.Index a < Chunk.Index b) := (List.pairwise_map).1 hmap
      exact h2
    have hnd_sorted : ((selSortGo delivered.length delivered).map Chunk.Index).Nodup :=
      (hperm2.map Chunk.Index).nodup_iff.2 hnd_split
    have hlt_sorted := pairwise_lt_of_le_nodup hsortle hnd_sorted
    have heq := List.eq_of_perm_of_sorted hperm2 hlt_sorted hlt_split
    show (selSortGo delivered.length delivered).flatMap Chunk.Data = data
    rw [heq]
    exact splitGo_data chunkSize hcs data.length data (Nat.le_refl _) 0
  · rw [chunkerSplit, splitGo, dif_pos (by simp)]

/-- Concrete instantiation of C8_split_reassemble_roundtrip: five bytes
split at chunk size 2 and delivered in reverse order reassemble to the
original data. -/
theorem C8_split_reassemble_roundtrip_witness :
    0 < 2 ∧
    Reassemble ((chunkerSplit 2 [1, 2, 3, 4, 5]).reverse) = [1, 2, 3, 4, 5] ∧
    chunkerSplit 2 [] = [] ∧
    Reassemble [] = [] := by
  have h := C8_split_reassemble_roundtrip [1, 2, 3, 4, 5] 2 (by omega)
    ((chunkerSplit 2 [1, 2, 3, 4, 5]).reverse) (List.reverse_perm _)
  exact ⟨by omega, h.1, h.2.1, h.2.2⟩

theorem decodeChunks_ne_tooLarge : ∀ (i : Nat) (data : List Nat) (offset : Nat),
    decodeChunks i data offset ≠ .error .batchTooLarge := by
  intro i
  induction i with
  | zero => intro data offset; simp [decodeChunks]
  | succ i ih =>
    intro data offset
    rw [decodeChunks]
    dsimp only
    split
    · simp
    · split
      · simp
      · split
        · simp
        · split
          · rename_i e heq
            intro hcon
            cases hcon
            exact ih data _ heq
          · simp

theorem decodeBatch_ne_tooLarge (data : List Nat) :
    DecodeBatch data ≠ .error .batchTooLarge := by
  rw [DecodeBatch]
  split
  · simp
  · split
    · simp
    · split
      · rename_i e heq
        intro hcon
        cases hcon
        exact decodeChunks_ne_tooLarge _ data 8 heq
      · simp

/-- Serialized size of a one-chunk batch. -/
theorem batchSize_single (idx : Nat) (cb : Bool) (d h : List Nat) :
    (Batch.mk [⟨idx, cb, d, h⟩]).Size = 19 + h.length + d.length := by
  rw [Batch.Size]
  simp
  omega

/-- C9 counterexample: a batch of serialized size exactly 4 MiB
(= MaxBatchSize) is NOT rejected by Encode, and a ReadBatch length
prefix of exactly 4 MiB is NOT rejected as BatchTooLarge; both checks
in the code are strict. -/
theorem C9_exact_4MiB_not_rejected :
    cexBatch.Size = MaxBatchSize ∧
    cexBatch.Encode ≠ .error .batchTooLarge ∧
    unbe [0, 64, 0, 0] = MaxBatchSize ∧
    ReadBatch ([0, 64, 0, 0] ++ List.replicate (4 * 1024 * 1024) 0)
      ≠ .error .batchTooLarge := by
  have hsz : cexBatch.Size = MaxBatchSize := by
    show (Batch.mk [⟨0, false, List.replicate 4194285 0, []⟩]).Size = MaxBatchSize
    rw [batchSize_single, List.length_replicate]
    norm_num [MaxBatchSize]
  refine ⟨hsz, ?_, by norm_num [unbe, MaxBatchSize], ?_⟩
  · rw [Batch.Encode, hsz, if_neg (by omega)]
    simp
  · have hlen4 : ([0, 64, 0, 0] : List Nat).length = 4 := rfl
    have hlen : (([0, 64, 0, 0] : List Nat) ++ List.replicate (4 * 1024 * 1024) 0).length
        = 4 + 4194304 := by
      rw [List.length_append, List.length_replicate, hlen4]
    rw [ReadBatch, if_neg (by rw [hlen]; norm_num)]
    dsimp only
    rw [List.take_left' hlen4]
    have hval : unbe [0, 64, 0, 0] = 4194304 := by norm_num [unbe]
    rw [hval, if_neg (by norm_num [MaxBatchSize]), if_neg (by rw [hlen]; norm_num)]
    exact decodeBatch_ne_tooLarge _

/-- C9 amended: a batch whose serialized size strictly exceeds 4 MiB is
rejected by Encode with BatchTooLarge, and ReadBatch rejects with
BatchTooLarge whenever the length prefix strictly exceeds 4 MiB. -/
theorem C9_strictly_oversized_rejected :
    (∀ b : Batch, b.Size > MaxBatchSize → b.Encode = .error .batchTooLarge) ∧
    (∀ input : List Nat, 4 ≤ input.length → unbe (input.take 4) > MaxBatchSize →
      ReadBatch input = .error .batchTooLarge) := by
  constructor
  · intro b hb
    rw [Batch.Encode, if_pos hb]
  · intro input hlen hval
    rw [ReadBatch, if_neg (by omega)]
    simp only
    rw [if_pos hval]

/-- Concrete instantiation of C9_strictly_oversized_rejected. -/
theorem C9_strictly_oversized_rejected_witness :
    cexBatch2.Size > MaxBatchSize ∧
    cexBatch2.Encode = .error .batchTooLarge ∧
    (4 ≤ ([0, 64, 0, 1] : List Nat).length ∧ unbe ([0, 64, 0, 1].take 4) > MaxBatchSize) ∧
    ReadBatch [0, 64, 0, 1] = .error .batchTooLarge := by
  have hsz : cexBatch2.Size > MaxBatchSize := by
    show (Batch.mk [⟨0, false, List.replicate 4194286 0, []⟩]).Size > MaxBatchSize
    rw [batchSize_single, List.length_replicate]
    norm_num [MaxBatchSize]
  have hpre : unbe (([0, 64, 0, 1] : List Nat).take 4) > MaxBatchSize := by
    norm_num [unbe, MaxBatchSize]
  exact ⟨hsz, C9_strictly_oversized_rejected.1 cexBatch2 hsz,
    ⟨by norm_num, hpre⟩,
    C9_strictly_oversized_rejected.2 [0, 64, 0, 1] (by norm_num) hpre⟩

theorem fromHexChar_digitChar (v : Nat) : fromHexChar (digitChar v) = some v := by
  rw [digitChar, fromHexChar]
  split_ifs with h1 h2 h3 h4 h5 h6 h7 <;> (first | (congr 1; omega) | omega)

theorem hexDecode_encode (bs : List Nat) : hexDecode (hexEncode bs) = .ok bs := by
  induction bs with
  | nil => rfl
  | cons b bs ih =>
    show hexDecode (digitChar (b / 16) :: digitChar (b % 16) :: hexEncode bs) = _
    rw [hexDecode]
    rw [fromHexChar_digitChar, fromHexChar_digitChar]
    simp only
    rw [ih]
    have : b / 16 * 16 + b % 16 = b := by omega
    rw [this]

theorem parsePeerIDHex_encode {id : List Nat} (h : id.length = 32) :
    ParsePeerIDHex (hexEncode id) = .ok id := by
  rw [ParsePeerIDHex, hexDecode_encode]
  simp [h]

theorem signingBytes_of_checks {h : Hello} {id : List Nat}
    (hpk : h.PublicKey.length = 32) (hparse : ParsePeerIDHex h.PeerID = .ok id) :
    h.SigningBytes = .ok (id ++ h.PublicKey ++ be 8 (toU64 h.TimestampSec) ++ h.Nonce ++
      capBytes h.Capabilities) := by
  rw [Hello.SigningBytes, if_neg (by omega), hparse]

/-- Signing a fresh HELLO produces the record with the genuine
signature over its signing bytes. -/
theorem signWith_newHello (kp : KeyPair) (ts : Int) (nonce : List Nat)
    (caps : List (List Nat × List Nat)) (hpk : kp.PublicKey.length = 32) :
    (NewHelloAt kp ts nonce caps).SignWith kp =
      .ok ⟨hexEncode (KeyPair.PeerID kp), kp.PublicKey, ts, nonce, caps,
        ed25519Sign kp.PrivateKey (SHA256 kp.PublicKey ++ kp.PublicKey ++
          be 8 (toU64 ts) ++ nonce ++ capBytes caps)⟩ := by
  have hsb : (NewHelloAt kp ts nonce caps).SigningBytes =
      .ok (SHA256 kp.PublicKey ++ kp.PublicKey ++ be 8 (toU64 ts) ++ nonce ++
        capBytes caps) :=
    signingBytes_of_checks hpk (parsePeerIDHex_encode (SHA256_length _))
  show Hello.SignWith (NewHelloAt kp ts nonce caps) kp = _
  rw [Hello.SignWith, hsb]
  rfl

/-- Verification outcome of the honestly built HELLO record as a
function of its signature field. -/
theorem verify_newHello_shape (kp : KeyPair) (ts : Int) (nonce sig : List Nat)
    (caps : List (List Nat × List Nat)) (hpk : kp.PublicKey.length = 32) :
    Hello.Verify ⟨hexEncode (KeyPair.PeerID kp), kp.PublicKey, ts, nonce, caps, sig⟩ =
      (if ed25519Verify kp.PublicKey (SHA256 kp.PublicKey ++ kp.PublicKey ++
          be 8 (toU64 ts) ++ nonce ++ capBytes caps) sig then .ok ()
       else .error .helloBadSignature) := by
  rw [Hello.Verify]
  dsimp only
  rw [if_neg (by omega)]
  rw [show ParsePeerIDHex (hexEncode (KeyPair.PeerID kp)) = .ok (SHA256 kp.PublicKey) from
    parsePeerIDHex_encode (SHA256_length _)]
  dsimp only
  rw [if_neg (by simp [PeerIDFromPublicKey])]
  rw [show Hello.SigningBytes ⟨hexEncode (KeyPair.PeerID kp), kp.PublicKey, ts, nonce,
      caps, sig⟩ = .ok (SHA256 kp.PublicKey ++ kp.PublicKey ++ be 8 (toU64 ts) ++ nonce ++
      capBytes caps) from
    signingBytes_of_checks hpk (parsePeerIDHex_encode (SHA256_length _))]
  rfl

/-- C1: Hello.Verify succeeds exactly when the public key is 32 bytes,
the peer id parses and equals SHA-256(publicKey), and the Ed25519
signature over the signing bytes validates under the public key; for a
freshly signed HELLO, verification succeeds, changing the signature to
any other value yields BadSignature, and replacing the embedded binary
peer id by any other 32-byte value (e.g. with one bit flipped) yields
PeerIDMismatch. -/
theorem C1_hello_verify_iff_and_tamper :
    (∀ h : Hello, h.Verify = .ok () ↔
      (h.PublicKey.length = 32 ∧
        ∃ id, ParsePeerIDHex h.PeerID = .ok id ∧ SHA256 h.PublicKey = id ∧
          ∃ sb, h.SigningBytes = .ok sb ∧
            ed25519Verify h.PublicKey sb h.Signature = true)) ∧
    (∀ (kp : KeyPair) (ts : Int) (nonce : List Nat)
      (caps : List (List Nat × List Nat)) (h1 : Hello),
      kp.PublicKey.length = 32 →
      kp.PrivateKey.drop 32 = kp.PublicKey →
      (NewHelloAt kp ts nonce caps).SignWith kp = .ok h1 →
      h1.Verify = .ok () ∧
      (∀ sig2, sig2 ≠ h1.Signature →
        ({ h1 with Signature := sig2 } : Hello).Verify = .error .helloBadSignature) ∧
      (∀ id2 : List Nat, id2.length = 32 → id2 ≠ SHA256 kp.PublicKey →
        ({ h1 with PeerID := hexEncode id2 } : Hello).Verify
          = .error .helloPeerIDMismatch)) := by
  constructor
  · intro h
    constructor
    · intro hok
      rw [Hello.Verify] at hok
      split at hok
      · cases hok
      · rename_i hpk
        split at hok
        · cases hok
        · rename_i claimed hparse
          split at hok
          · cases hok
          · rename_i hmatch
            split at hok
            · cases hok
            · rename_i sb hsb
              split at hok
              · rename_i hver
                refine ⟨by omega, claimed, hparse, by simpa using hmatch, sb, hsb, ?_⟩
                simpa using hver
              · cases hok
    · rintro ⟨hpk, id, hparse, hsha, sb, hsb, hver⟩
      rw [Hello.Verify, if_neg (by omega), hparse]
      simp only
      rw [if_neg (by simp [PeerIDFromPublicKey, hsha]), hsb]
      simp only
      rw [if_pos (show identityVerify h.PublicKey sb h.Signature = true from hver)]
  · intro kp ts nonce caps h1 hpk hpriv hsign
    rw [signWith_newHello kp ts nonce caps hpk] at hsign
    cases hsign
    set sb := SHA256 kp.PublicKey ++ kp.PublicKey ++ be 8 (toU64 ts) ++ nonce ++
      capBytes caps with hsbdef
    have hsig : ed25519Sign kp.PrivateKey sb = sigTag kp.PublicKey sb := by
      rw [ed25519Sign, hpriv]
    refine ⟨?_, ?_, ?_⟩
    · rw [verify_newHello_shape kp ts nonce _ caps hpk, if_pos]
      show ed25519Verify kp.PublicKey sb (ed25519Sign kp.PrivateKey sb) = true
      rw [hsig, ed25519Verify]
      simp
    · intro sig2 hne
      show Hello.Verify ⟨hexEncode (KeyPair.PeerID kp), kp.PublicKey, ts, nonce, caps,
        sig2⟩ = _
      rw [verify_newHello_shape kp ts nonce sig2 caps hpk, if_neg]
      rw [ed25519Verify]
      simp only [decide_eq_true_eq]
      intro hcon
      apply hne
      show sig2 = ed25519Sign kp.PrivateKey sb
      rw [hsig, hcon]
    · intro id2 hlen2 hne2
      show Hello.Verify ⟨hexEncode id2, kp.PublicKey, ts, nonce, caps,
        ed25519Sign kp.PrivateKey sb⟩ = _
      rw [Hello.Verify]
      dsimp only
      rw [if_neg (by omega), parsePeerIDHex_encode hlen2]
      dsimp only
      rw [if_pos]
      show PeerIDFromPublicKey kp.PublicKey ≠ id2
      rw [PeerIDFromPublicKey]
      exact fun hcon => hne2 hcon.symm

/-- Concrete instantiation of C1_hello_verify_iff_and_tamper: a signed
HELLO from the witness keypair verifies; replacing its signature by a
one-byte string gives BadSignature; replacing the embedded binary peer
id by 32 one-bytes (inconsistent with SHA-256 of the public key) gives
PeerIDMismatch. -/
theorem C1_hello_verify_iff_and_tamper_witness :
    ∃ h1 : Hello,
      (NewHelloAt kpw 0 (List.replicate 32 2) []).SignWith kpw = .ok h1 ∧
      h1.Verify = .ok () ∧
      ({ h1 with Signature := [0] } : Hello).Verify = .error .helloBadSignature ∧
      ({ h1 with PeerID := hexEncode (List.replicate 32 1) } : Hello).Verify
        = .error .helloPeerIDMismatch := by
  have hpk : kpw.PublicKey.length = 32 := by simp [kpw]
  have hpriv : kpw.PrivateKey.drop 32 = kpw.PublicKey := by
    show (List.replicate 32 7 ++ List.replicate 32 0).drop 32 = List.replicate 32 0
    rw [List.drop_left' (by simp)]
  have hsign := signWith_newHello kpw 0 (List.replicate 32 2) [] hpk
  have h := C1_hello_verify_iff_and_tamper.2 kpw 0 (List.replicate 32 2) [] _ hpk hpriv hsign
  refine ⟨_, hsign, h.1, ?_, ?_⟩
  · apply h.2.1
    intro hcon
    have hlen := congrArg List.length hcon
    rw [show ([0] : List Nat).length = 1 from rfl] at hlen
    simp [ed25519Sign, sigTag, lpc] at hlen
  · apply h.2.2 (List.replicate 32 1) (by simp)
    intro hcon
    have h0 := congrArg (fun l => l.getD 0 0) hcon
    simp only [SHA256, List.getD_cons_zero] at h0
    have h0z : (1 : Nat) = 256 + encL kpw.PublicKey := h0
    omega

/-! Session tickets, from part_006.  Encode/DecodeTicket only read the
store key; the ticket map and its lock play no role here. -/
theorem foldl_unbe (l : List Nat) : ∀ a, l.foldl (fun a b => a * 256 + b) a
    = a * 256 ^ l.length + unbe l := by
  induction l with
  | nil => intro a; simp [unbe]
  | cons d rest ih =>
    intro a
    show rest.foldl (fun a b => a * 256 + b) (a * 256 + d) = _
    rw [ih (a * 256 + d)]
    have hu : unbe (d :: rest) = d * 256 ^ rest.length + unbe rest := by
      show (d :: rest).foldl (fun a b => a * 256 + b) 0 = _
      show rest.foldl (fun a b => a * 256 + b) (0 * 256 + d) = _
      rw [ih (0 * 256 + d)]
      simp
    rw [hu]
    simp only [List.length_cons]
    ring

theorem be_succ (w n : Nat) : be (w + 1) n = (n / 256 ^ w % 256) :: be w (n % 256 ^ w) := by
  rw [be, List.range_succ_eq_map, List.map_cons]
  congr 1
  rw [be, List.map_map]
  apply List.map_congr_left
  intro i hi
  rw [List.mem_range] at hi
  show n / 256 ^ (w - (i + 1)) % 256 = n % 256 ^ w / 256 ^ (w - 1 - i) % 256
  have hidx : w - (i + 1) = w - 1 - i := by omega
  rw [hidx]
  have hk : w - 1 - i + 1 ≤ w := by omega
  set k := w - 1 - i with hkdef
  have hsplit : n = 256 ^ k * (256 ^ (w - k) * (n / 256 ^ w)) + n % 256 ^ w := by
    have hpow : 256 ^ k * 256 ^ (w - k) = 256 ^ w := by
      rw [← pow_add]
      congr 1
      omega
    calc n = 256 ^ w * (n / 256 ^ w) + n % 256 ^ w := (Nat.div_add_mod n (256 ^ w)).symm
      _ = 256 ^ k * (256 ^ (w - k) * (n / 256 ^ w)) + n % 256 ^ w := by
          rw [← hpow]; ring_nf
  have hdiv : n / 256 ^ k = 256 ^ (w - k) * (n / 256 ^ w) + n % 256 ^ w / 256 ^ k := by
    conv_lhs => rw [hsplit]
    rw [Nat.mul_add_div (Nat.pos_pow_of_pos k (by omega))]
  rw [hdiv]
  have hwk : ∃ m, w - k = m + 1 := ⟨w - k - 1, by omega⟩
  obtain ⟨m, hm⟩ := hwk
  rw [hm, pow_succ]
  rw [show 256 ^ m * 256 * (n / 256 ^ w) + n % 256 ^ w / 256 ^ k
    = 256 * (256 ^ m * (n / 256 ^ w)) + n % 256 ^ w / 256 ^ k from by ring]
  rw [Nat.mul_add_mod]

theorem unbe_be (w : Nat) : ∀ n, n < 256 ^ w → unbe (be w n) = n := by
  induction w with
  | zero =>
    intro n hn
    have : n = 0 := by simpa using hn
    subst this
    rfl
  | succ w ih =>
    intro n hn
    rw [be_succ]
    show unbe (n / 256 ^ w % 256 :: be w (n % 256 ^ w)) = n
    rw [unbe]
    show List.foldl (fun a b => a * 256 + b) (0 * 256 + n / 256 ^ w % 256) (be w (n % 256 ^ w)) = n
    rw [foldl_unbe]
    rw [show unbe (be w (n % 256 ^ w)) = n % 256 ^ w from
      ih (n % 256 ^ w) (Nat.mod_lt n (Nat.pos_pow_of_pos w (by omega)))]
    rw [be_length]
    have hq : n / 256 ^ w < 256 := by
      rw [Nat.div_lt_iff_lt_mul (Nat.pos_pow_of_pos w (by omega))]
      calc n < 256 ^ (w + 1) := hn
        _ = 256 * 256 ^ w := by rw [pow_succ]; ring
    rw [Nat.mod_eq_of_lt hq]
    simp only [Nat.zero_mul, Nat.zero_add]
    exact Nat.div_add_mod' n (256 ^ w)

theorem toInt64_toU64 (x : Int) (h1 : -(2 ^ 63) ≤ x) (h2 : x < 2 ^ 63) :
    toInt64 (toU64 x) = x := by
  rw [toInt64, toU64]
  split <;> omega

theorem toU64_lt (x : Int) : toU64 x < 2 ^ 64 := by
  rw [toU64]
  omega

theorem ticketPlain_length (t : Ticket) (hpeer : t.PeerID.length = 32)
    (hsess : t.SessionKey.length = 32) : (ticketPlain t).length = 80 := by
  simp [ticketPlain, be_length, hpeer, hsess]

theorem ticketPlain_slices (t : Ticket) (hpeer : t.PeerID.length = 32)
    (hsess : t.SessionKey.length = 32) :
    (ticketPlain t).take 32 = t.PeerID ∧
    ((ticketPlain t).drop 32).take 8 = be 8 (toU64 t.IssuedAt) ∧
    ((ticketPlain t).drop 40).take 8 = be 8 (toU64 t.ExpiresAt) ∧
    ((ticketPlain t).drop 48).take 32 = t.SessionKey := by
  have h32 : (ticketPlain t).drop 32
      = be 8 (toU64 t.IssuedAt) ++ (be 8 (toU64 t.ExpiresAt) ++ t.SessionKey) := by
    rw [ticketPlain, List.append_assoc, List.append_assoc]
    exact List.drop_left' hpeer
  have h40 : (ticketPlain t).drop 40 = be 8 (toU64 t.ExpiresAt) ++ t.SessionKey := by
    rw [ticketPlain, List.append_assoc]
    exact List.drop_left' (by simp [be_length, hpeer])
  have h48 : (ticketPlain t).drop 48 = t.SessionKey := by
    rw [ticketPlain]
    exact List.drop_left' (by simp [be_length, hpeer])
  refine ⟨?_, ?_, ?_, ?_⟩
  · rw [ticketPlain, List.append_assoc, List.append_assoc]
    exact List.take_left' hpeer
  · rw [h32]
    exact List.take_left' (be_length 8 _)
  · rw [h40]
    exact List.take_left' (be_length 8 _)
  · rw [h48]
    exact List.take_of_length_le hsess.le

theorem encodeTicket_eq (ts : TicketStore) (pfx : List Nat) (t : Ticket)
    (hk : ts.key.length = 32) :
    EncodeTicket ts pfx t = .ok (t.ID ++ ((pfx ++ be 8 (1 % U64)) ++
      chachaSeal ts.key (pfx ++ be 8 (1 % U64)) (ticketPlain t) t.ID)) := by
  rw [EncodeTicket, newAEAD, if_pos hk]
  rfl

/-- Decode of well-shaped wire data id(16) || nonce(12) || ct reduces to
the ideal-cipher open followed by the post-checks. -/
theorem decodeTicket_shape (ts : TicketStore) (now : Int) (idb nb ctb : List Nat)
    (hk : ts.key.length = 32) (hid : idb.length = 16) (hn : nb.length = 12)
    (hct : 96 ≤ ctb.length) :
    DecodeTicket ts now (idb ++ (nb ++ ctb)) =
      match chachaOpen ts.key nb ctb idb with
      | none => .error .ticketInvalid
      | some plain =>
        if plain.length ≠ 80 then .error .ticketInvalid
        else if now > toInt64 (unbe ((plain.drop 40).take 8)) then .error .ticketExpired
        else .ok ⟨idb, toInt64 (unbe ((plain.drop 32).take 8)),
          toInt64 (unbe ((plain.drop 40).take 8)), plain.take 32,
          (plain.drop 48).take 32⟩ := by
  have hlen : (idb ++ (nb ++ ctb)).length = 28 + ctb.length := by
    simp only [List.length_append, hid, hn]
    omega
  rw [DecodeTicket, if_neg (by rw [hlen]; omega), newAEAD, if_pos hk]
  rw [List.take_left' hid, List.drop_left' hid]
  dsimp only
  rw [aeadOpen]
  dsimp only
  rw [aeadOpenWith, if_neg (by rw [List.length_append, hn]; omega)]
  rw [List.take_left' hn, List.drop_left' hn]
  cases hco : chachaOpen ts.key nb ctb idb with
  | none => rfl
  | some plain => rfl

theorem decodeTicket_encode_ok (ts1 ts2 : TicketStore) (pfx : List Nat) (t : Ticket)
    (now : Int) (enc : List Nat)
    (hk1 : ts1.key.length = 32) (hkey : ts2.key = ts1.key) (hpfx : pfx.length = 4)
    (hid : t.ID.length = 16) (hpeer : t.PeerID.length = 32) (hsess : t.SessionKey.length = 32)
    (hi1 : -(2 ^ 63) ≤ t.IssuedAt) (hi2 : t.IssuedAt < 2 ^ 63)
    (he1 : -(2 ^ 63) ≤ t.ExpiresAt) (he2 : t.ExpiresAt < 2 ^ 63)
    (henc : EncodeTicket ts1 pfx t = .ok enc) :
    DecodeTicket ts2 now enc =
      (if now > t.ExpiresAt then .error .ticketExpired else .ok t) := by
  rw [encodeTicket_eq ts1 pfx t hk1] at henc
  injection henc with h
  subst h
  set nb := pfx ++ be 8 (1 % U64) with hnb
  have hnlen : nb.length = 12 := by rw [hnb]; simp [be_length, hpfx]
  have hplen : (ticketPlain t).length = 80 := ticketPlain_length t hpeer hsess
  have hctlen : (chachaSeal ts1.key nb (ticketPlain t) t.ID).length = 224 := by
    rw [chachaSeal_length, hnlen, hid, hk1, hplen]
  have hk2 : ts2.key.length = 32 := by rw [hkey, hk1]
  rw [decodeTicket_shape ts2 now t.ID nb _ hk2 hid hnlen (by rw [hctlen]; omega)]
  rw [hkey, chachaOpen_seal]
  dsimp only
  rw [if_neg (by simp [hplen])]
  obtain ⟨hs1, hs2, hs3, hs4⟩ := ticketPlain_slices t hpeer hsess
  rw [hs1, hs2, hs3, hs4]
  have h28 : (256 : Nat) ^ 8 = 2 ^ 64 := by norm_num
  rw [unbe_be 8 (toU64 t.IssuedAt) (by rw [h28]; exact toU64_lt _),
    unbe_be 8 (toU64 t.ExpiresAt) (by rw [h28]; exact toU64_lt _)]
  rw [toInt64_toU64 t.IssuedAt hi1 hi2, toInt64_toU64 t.ExpiresAt he1 he2]

theorem decodeTicket_wrong_key (ts1 ts2 : TicketStore) (pfx : List Nat) (t : Ticket)
    (now : Int) (enc : List Nat)
    (hk1 : ts1.key.length = 32) (hk2 : ts2.key.length = 32) (hkey : ts2.key ≠ ts1.key)
    (hpfx : pfx.length = 4) (hid : t.ID.length = 16)
    (hpeer : t.PeerID.length = 32) (hsess : t.SessionKey.length = 32)
    (henc : EncodeTicket ts1 pfx t = .ok enc) :
    DecodeTicket ts2 now enc = .error .ticketInvalid := by
  rw [encodeTicket_eq ts1 pfx t hk1] at henc
  injection henc with h
  subst h
  set nb := pfx ++ be 8 (1 % U64) with hnb
  have hnlen : nb.length = 12 := by rw [hnb]; simp [be_length, hpfx]
  have hplen : (ticketPlain t).length = 80 := ticketPlain_length t hpeer hsess
  have hctlen : (chachaSeal ts1.key nb (ticketPlain t) t.ID).length = 224 := by
    rw [chachaSeal_length, hnlen, hid, hk1, hplen]
  rw [decodeTicket_shape ts2 now t.ID nb _ hk2 hid hnlen (by rw [hctlen]; omega)]
  cases hco : chachaOpen ts2.key nb (chachaSeal ts1.key nb (ticketPlain t) t.ID) t.ID with
  | none => rfl
  | some q =>
    exfalso
    have hsound := chachaOpen_sound hco
    obtain ⟨hkk, _, _, _⟩ := chachaSeal_inj hsound
    exact hkey hkk.symm

theorem decodeTicket_mutated (ts : TicketStore) (pfx : List Nat) (t : Ticket) (now : Int)
    (hk : ts.key.length = 32) (hpfx : pfx.length = 4) (hid : t.ID.length = 16)
    (hpeer : t.PeerID.length = 32) (hsess : t.SessionKey.length = 32)
    (p v : Nat) (enc : List Nat) (henc : EncodeTicket ts pfx t = .ok enc)
    (hp : p < enc.length) (hv : v ≠ enc.getD p 0) :
    DecodeTicket ts now (enc.set p v) = .error .ticketInvalid := by
  rw [encodeTicket_eq ts pfx t hk] at henc
  injection henc with h
  subst h
  set nb := pfx ++ be 8 (1 % U64) with hnb
  have hnlen : nb.length = 12 := by rw [hnb]; simp [be_length, hpfx]
  have hplen : (ticketPlain t).length = 80 := ticketPlain_length t hpeer hsess
  set ctb := chachaSeal ts.key nb (ticketPlain t) t.ID with hctb
  have hctlen : ctb.length = 224 := by
    rw [hctb, chachaSeal_length, hnlen, hid, hk, hplen]
  have henclen : (t.ID ++ (nb ++ ctb)).length = 252 := by
    simp only [List.length_append, hid, hnlen, hctlen]
  rw [henclen] at hp
  rcases Nat.lt_or_ge p 16 with h16 | h16
  · rw [List.set_append_left p v (by rw [hid]; exact h16)]
    rw [decodeTicket_shape ts now (t.ID.set p v) nb ctb hk
      (by rw [List.length_set, hid]) hnlen (by rw [hctlen]; omega)]
    cases hco : chachaOpen ts.key nb ctb (t.ID.set p v) with
    | none => rfl
    | some q =>
      exfalso
      have hsound := chachaOpen_sound hco
      rw [hctb] at hsound
      obtain ⟨_, _, _, had⟩ := chachaSeal_inj hsound
      have hvne : v ≠ t.ID.getD p 0 := by
        rw [← List.getD_append t.ID (nb ++ ctb) 0 p (by rw [hid]; exact h16)]
        exact hv
      exact set_ne_self (by rw [hid]; exact h16) hvne had.symm
  · rw [List.set_append_right p v (by rw [hid]; exact h16), hid]
    rcases Nat.lt_or_ge p 28 with h28 | h28
    · rw [List.set_append_left (p - 16) v (by rw [hnlen]; omega)]
      rw [decodeTicket_shape ts now t.ID (nb.set (p - 16) v) ctb hk hid
        (by rw [List.length_set, hnlen]) (by rw [hctlen]; omega)]
      cases hco : chachaOpen ts.key (nb.set (p - 16) v) ctb t.ID with
      | none => rfl
      | some q =>
        exfalso
        have hsound := chachaOpen_sound hco
        rw [hctb] at hsound
        obtain ⟨_, hn', _, _⟩ := chachaSeal_inj hsound
        have hvne : v ≠ nb.getD (p - 16) 0 := by
          rw [List.getD_append_right t.ID (nb ++ ctb) 0 p (by rw [hid]; exact h16), hid,
            List.getD_append nb ctb 0 (p - 16) (by rw [hnlen]; omega)] at hv
          exact hv
        exact set_ne_self (by rw [hnlen]; omega) hvne hn'.symm
    · rw [List.set_append_right (p - 16) v (by rw [hnlen]; omega), hnlen]
      have hj : p - 16 - 12 = p - 28 := by omega
      rw [hj]
      rw [decodeTicket_shape ts now t.ID nb (ctb.set (p - 28) v) hk hid hnlen
        (by rw [List.length_set, hctlen]; omega)]
      cases hco : chachaOpen ts.key nb (ctb.set (p - 28) v) t.ID with
      | none => rfl
      | some q =>
        exfalso
        have hsound := chachaOpen_sound hco
        have hjlt : p - 28 < ctb.length := by rw [hctlen]; omega
        have hvne : v ≠ ctb.getD (p - 28) 0 := by
          rw [List.getD_append_right t.ID (nb ++ ctb) 0 p (by rw [hid]; omega), hid,
            List.getD_append_right nb ctb 0 (p - 16) (by rw [hnlen]; omega), hnlen, hj] at hv
          exact hv
        rw [hctb] at hsound hjlt hvne
        exact seal_set_not_seal hjlt hvne q hsound

/-- C7: for a ticket encoded by a store, DecodeTicket on the wire bytes
returns the ticket exactly when the clock has not passed ExpiresAt and the
decoding store holds the same key; after expiry it fails with
TicketExpired, under a different key with TicketInvalid, and every
one-byte mutation of the encoding fails with TicketInvalid. -/
theorem C7_ticket_roundtrip_and_tamper
    (ts1 ts2 : TicketStore) (pfx : List Nat) (t : Ticket) (now : Int) (enc : List Nat)
    (hk1 : ts1.key.length = 32) (hk2 : ts2.key.length = 32) (hpfx : pfx.length = 4)
    (hid : t.ID.length = 16) (hpeer : t.PeerID.length = 32) (hsess : t.SessionKey.length = 32)
    (hi1 : -(2 ^ 63) ≤ t.IssuedAt) (hi2 : t.IssuedAt < 2 ^ 63)
    (he1 : -(2 ^ 63) ≤ t.ExpiresAt) (he2 : t.ExpiresAt < 2 ^ 63)
    (henc : EncodeTicket ts1 pfx t = .ok enc) :
    (DecodeTicket ts2 now enc = .ok t ↔ (now ≤ t.ExpiresAt ∧ ts2.key = ts1.key)) ∧
    (now > t.ExpiresAt → DecodeTicket ts1 now enc = .error .ticketExpired) ∧
    (ts2.key ≠ ts1.key → DecodeTicket ts2 now enc = .error .ticketInvalid) ∧
    (∀ p v, p < enc.length → v ≠ enc.getD p 0 →
      DecodeTicket ts1 now (enc.set p v) = .error .ticketInvalid) := by
  refine ⟨⟨?_, ?_⟩, ?_, ?_, ?_⟩
  · intro hok
    by_cases hkk : ts2.key = ts1.key
    · refine ⟨?_, hkk⟩
      rw [decodeTicket_encode_ok ts1 ts2 pfx t now enc hk1 hkk hpfx hid hpeer hsess
        hi1 hi2 he1 he2 henc] at hok
      by_contra hlt
      push_neg at hlt
      rw [if_pos hlt] at hok
      cases hok
    · rw [decodeTicket_wrong_key ts1 ts2 pfx t now enc hk1 hk2 hkk hpfx hid hpeer hsess
        henc] at hok
      cases hok
  · rintro ⟨hle, hkk⟩
    rw [decodeTicket_encode_ok ts1 ts2 pfx t now enc hk1 hkk hpfx hid hpeer hsess
      hi1 hi2 he1 he2 henc]
    rw [if_neg (by omega)]
  · intro hlt
    rw [decodeTicket_encode_ok ts1 ts1 pfx t now enc hk1 rfl hpfx hid hpeer hsess
      hi1 hi2 he1 he2 henc]
    rw [if_pos hlt]
  · intro hkk
    exact decodeTicket_wrong_key ts1 ts2 pfx t now enc hk1 hk2 hkk hpfx hid hpeer hsess henc
  · intro p v hp hv
    exact decodeTicket_mutated ts1 pfx t now hk1 hpfx hid hpeer hsess p v enc henc hp hv

theorem C7_ticket_roundtrip_and_tamper_witness :
    EncodeTicket tsW [9, 9, 9, 9] tW = .ok encW ∧
    ((DecodeTicket tsW 3 encW = .ok tW ↔ ((3 : Int) ≤ tW.ExpiresAt ∧ tsW.key = tsW.key)) ∧
     ((3 : Int) > tW.ExpiresAt → DecodeTicket tsW 3 encW = .error .ticketExpired) ∧
     (tsW.key ≠ tsW.key → DecodeTicket tsW 3 encW = .error .ticketInvalid) ∧
     (∀ p v, p < encW.length → v ≠ encW.getD p 0 →
        DecodeTicket tsW 3 (encW.set p v) = .error .ticketInvalid)) :=
  ⟨encodeTicket_eq tsW [9, 9, 9, 9] tW (by simp [tsW]),
   C7_ticket_roundtrip_and_tamper tsW tsW [9, 9, 9, 9] tW 3 encW
     (by simp [tsW]) (by simp [tsW]) (by decide) (by simp [tW]) (by simp [tW]) (by simp [tW])
     (by decide) (by decide) (by decide) (by decide)
     (encodeTicket_eq tsW [9, 9, 9, 9] tW (by simp [tsW]))⟩

end I6P
